import Mathlib

/-! Garbage collector of pmoxs3backuproxy: a shallow embedding of
`cmd/garbagecollector/main.go` and the properties of its specification.

The embedding covers the checksum validation `compareSum`, the retention loop (Phase 1), the
sweep of `indexed/` (Phase 2), the marking of used chunks from `.fidx` and `.didx` indexes
(Phase 3), the sweep of `chunks/` (Phase 4), the integrity check (Phase 5) and the driver
`main` from the acquisition of the lock onwards.

Conventions.
* A Go `[]byte` is a `List Nat` of byte values, a Go `string` is a `String`.
* Go's `int64` cursor of the dynamic-index loop is an `Int` wrapped by `int64`; the `uint64`
  arithmetic of the retention test is `Nat` arithmetic modulo `2^64`.
* `os.Exit(1)` after an error print is the outcome `fatal`. The only unbounded loop of the
  program, the record loop of a dynamic index, takes an iteration budget and yields
  `timeout` when the budget is used up before the loop stops.
* The object store is a list of objects; `ListObjects` filters it by key prefix. The library
  functions of Go that the collector calls (`hex.EncodeToString`, `sha256.Sum256`,
  `strings.Split`, `bytes.Reader.ReadAt`, ...) are embedded with their documented behaviour.
-/

namespace GC

/-! ## Library functions of Go used by the collector -/

/-- Table of `encoding/hex`: the lowercase hexadecimal digits. -/
def hextable : List Char := String.toList "0123456789abcdef"

/-- Characters written by `hex.EncodeToString`: `hextable[v>>4]`, `hextable[v&0x0f]` per byte. -/
def encodeChars : List Nat → List Char
  | [] => []
  | v :: rest => hextable.getD (v >>> 4) '0' :: hextable.getD (v &&& 15) '0' :: encodeChars rest

/-- Go `hex.EncodeToString`. -/
def EncodeToString (src : List Nat) : String := String.mk (encodeChars src)

/-- Go slice expression `data[lo:hi]` (used in range only, after the length test). -/
def slice (data : List Nat) (lo hi : Nat) : List Nat := (data.take hi).drop lo

/-- Round constants of SHA-256 (FIPS 180-4). -/
def sha256K : List Nat := [
  1116352408, 1899447441, 3049323471, 3921009573, 961987163, 1508970993, 2453635748, 2870763221,
  3624381080, 310598401, 607225278, 1426881987, 1925078388, 2162078206, 2614888103, 3248222580,
  3835390401, 4022224774, 264347078, 604807628, 770255983, 1249150122, 1555081692, 1996064986,
  2554220882, 2821834349, 2952996808, 3210313671, 3336571891, 3584528711, 113926993, 338241895,
  666307205, 773529912, 1294757372, 1396182291, 1695183700, 1986661051, 2177026350, 2456956037,
  2730485921, 2820302411, 3259730800, 3345764771, 3516065817, 3600352804, 4094571909, 275423344,
  430227734, 506948616, 659060556, 883997877, 958139571, 1322822218, 1537002063, 1747873779,
  1955562222, 2024104815, 2227730452, 2361852424, 2428436474, 2756734187, 3204031479, 3329325298]

/-- Initial hash value of SHA-256. -/
def sha256Init : List Nat :=
  [1779033703, 3144134277, 1013904242, 2773480762, 1359893119, 2600822924, 528734635, 1541459225]

/-- Rotation to the right of a 32-bit word. -/
def rotr (x n : Nat) : Nat := ((x >>> n) ||| (x <<< (32 - n))) % 4294967296

/-- Padding of SHA-256: the byte `0x80`, zeros up to 56 modulo 64, the bit length on 8 bytes. -/
def sha256Pad (msg : List Nat) : List Nat :=
  msg ++ ([128] ++ List.replicate ((119 - msg.length % 64) % 64) 0 ++
    (List.range 8).map (fun i => ((8 * msg.length) >>> (8 * (7 - i))) % 256))

/-- Big-endian 32-bit words of a byte sequence. -/
def sha256Words : List Nat → List Nat
  | a :: b :: c :: d :: rest =>
    ((((a % 256) * 256 + b % 256) * 256 + c % 256) * 256 + d % 256) :: sha256Words rest
  | _ => []

/-- Message schedule, newest word first, extended by `n` words. -/
def sha256Schedule : Nat → List Nat → List Nat
  | 0, w => w
  | n + 1, w =>
    let w2 := w.getD 1 0
    let w7 := w.getD 6 0
    let w15 := w.getD 14 0
    let w16 := w.getD 15 0
    let s0 := rotr w15 7 ^^^ rotr w15 18 ^^^ (w15 >>> 3)
    let s1 := rotr w2 17 ^^^ rotr w2 19 ^^^ (w2 >>> 10)
    sha256Schedule n (((w16 + s0 + w7 + s1) % 4294967296) :: w)

/-- One round of the compression function on the working variables `a .. h`. -/
def sha256Round (st : List Nat) (kw : Nat × Nat) : List Nat :=
  match st with
  | [a, b, c, d, e, f, g, h] =>
    let S1 := rotr e 6 ^^^ rotr e 11 ^^^ rotr e 25
    let ch := (e &&& f) ^^^ ((4294967295 - e) &&& g)
    let t1 := (h + S1 + ch + kw.1 + kw.2) % 4294967296
    let S0 := rotr a 2 ^^^ rotr a 13 ^^^ rotr a 22
    let maj := (a &&& b) ^^^ (a &&& c) ^^^ (b &&& c)
    let t2 := (S0 + maj) % 4294967296
    [(t1 + t2) % 4294967296, a, b, c, (d + t1) % 4294967296, e, f, g]
  | _ => st

/-- Compression of one 64-byte block into the hash value. -/
def sha256Compress (h : List Nat) (block : List Nat) : List Nat :=
  let w := (sha256Schedule 48 (sha256Words block).reverse).reverse
  let st := (sha256K.zip w).foldl sha256Round h
  List.zipWith (fun x y => (x + y) % 4294967296) h st

/-- The first `n` blocks of 64 bytes. -/
def sha256Blocks : Nat → List Nat → List (List Nat)
  | 0, _ => []
  | n + 1, l => l.take 64 :: sha256Blocks n (l.drop 64)

/-- Go `sha256.Sum256`: the 32-byte SHA-256 digest of a byte sequence. -/
def Sum256 (msg : List Nat) : List Nat :=
  let p := sha256Pad msg
  let h := (sha256Blocks (p.length / 64) p).foldl sha256Compress sha256Init
  h.flatMap (fun w => [w >>> 24 % 256, w >>> 16 % 256, w >>> 8 % 256, w % 256])

/-- Go `strings.HasSuffix`. -/
def HasSuffix (s suffix : String) : Bool := suffix.data.isSuffixOf s.data

/-- Pieces of a character sequence between occurrences of `sep`. -/
def splitChars (sep : Char) : List Char → List (List Char)
  | [] => [[]]
  | c :: cs =>
    if c = sep then [] :: splitChars sep cs
    else
      match splitChars sep cs with
      | [] => [[c]]
      | seg :: segs => (c :: seg) :: segs

/-- Go `strings.Split(s, sep)` for a one-character separator. -/
def Split (s : String) (sep : Char) : List String := (splitChars sep s.data).map String.mk

/-- Go `strings.Join`. -/
def Join : List String → String → String
  | [], _ => ""
  | [a], _ => a
  | a :: b :: rest, sep => a ++ sep ++ Join (b :: rest) sep

/-- Go conversion to `int64`: two's complement wrap-around of an integer. -/
def int64 (x : Int) : Int := (x + 9223372036854775808) % 18446744073709551616 - 9223372036854775808

/-- Go conversion to `uint64`. -/
def uint64 (x : Int) : Nat := (x % 18446744073709551616).toNat

/-- Contents of a fresh zeroed buffer of `n` bytes after `bytes.Reader.ReadAt(buf, off)` on a
reader over `s`: nothing is copied for a negative offset or an offset at or past the end,
otherwise the bytes available from `off` are copied and the rest of the buffer stays zero. -/
def ReadAt (s : List Nat) (n : Nat) (off : Int) : List Nat :=
  if off < 0 then List.replicate n 0
  else if (s.length : Int) ≤ off then List.replicate n 0
  else
    let got := (s.drop off.toNat).take n
    got ++ List.replicate (n - got.length) 0

/-- Go `binary.LittleEndian.Uint64` on the bytes of a buffer. -/
def Uint64 (b : List Nat) : Nat := (b.take 8).foldr (fun x acc => x % 256 + 256 * acc) 0

/-! ## Data model -/

/-- Go `map[string]T` as an association list with distinct keys. -/
abbrev StrMap (β : Type) := List (String × β)

/-- Map lookup `v, ok := m[k]`. -/
def mapGet {β : Type} : StrMap β → String → Option β
  | [], _ => none
  | (k', v) :: rest, k => if k' = k then some v else mapGet rest k

/-- Map assignment `m[k] = v`. -/
def mapSet {β : Type} : StrMap β → String → β → StrMap β
  | [], k, v => [(k, v)]
  | (k', v') :: rest, k, v => if k' = k then (k, v) :: rest else (k', v') :: mapSet rest k v

/-- Result of `GetObject` followed by `io.ReadAll` on a key. -/
inductive Fetch where
  | accessError
  | readError
  | data (b : List Nat)
deriving DecidableEq, Repr

/-- An object of the bucket: its key, its `X-Amz-Meta-Csum` user metadata (empty when the
attribute is not set) and what fetching its body returns. -/
structure Object where
  Key : String
  Csum : String
  content : Fetch
deriving DecidableEq, Repr

/-- Modelled from the spec: the snapshot record of `internal/s3pmoxcommon`, of which the
collector reads the backup time (a `uint64` Unix timestamp) and the protection flag. -/
structure Snapshot where
  BackupID : String
  BackupTime : Nat
  Protected : Bool
deriving DecidableEq, Repr

/-- A call of `PutObject`: key, body and declared length. -/
structure Put where
  Key : String
  Body : String
  Size : Int
deriving DecidableEq, Repr

/-- The fatal exits (`os.Exit(1)`) of the collector. -/
inductive Fatal where
  | lockNotAcquired
  | bucketInaccessible
  | bucketAbsent
  | snapshotListing
  | noSnapshots
  | noCsumMetadata
  | objectAccess
  | objectRead
  | tooSmall
  | checksumMismatch
  | unalignedFixedIndex
  | corruptionTagging
deriving DecidableEq, Repr

/-- Outcome of a part of the run: a value, a fatal exit, or a loop that is still running when
the iteration budget is used up. -/
inductive Outcome (α : Type) where
  | ok (a : α)
  | fatal (e : Fatal)
  | timeout
deriving DecidableEq, Repr

/-- Sequencing of outcomes. -/
def Outcome.andThen {α β : Type} (x : Outcome α) (f : α → Outcome β) : Outcome β :=
  match x with
  | .ok a => f a
  | .fatal e => .fatal e
  | .timeout => .timeout

/-- `ListObjects` with a key prefix, over the objects of the bucket. -/
def ListObjects (bucket : List Object) (pfx : String) : List Object :=
  bucket.filter (fun o => pfx.data.isPrefixOf o.Key.data)

/-! ## The collector -/

/-- Source `compareSum`: `none` is Go's `nil`, `some msg` the error. -/
def compareSum (csum : List Nat) (index : List Nat) (metadatasum : String) : Option String :=
  let fileChecksum := EncodeToString csum
  let shaSum := Sum256 index
  let checksum := EncodeToString shaSum
  if fileChecksum ≠ checksum ∨ fileChecksum ≠ metadatasum then
    some ("Corrupted index file: Checksum in index [" ++ fileChecksum ++ "] or metadata sum ["
      ++ metadatasum ++ "] does not match calculated checksum [" ++ checksum ++ "]")
  else none

/-- The expiry test of Phase 1 in `uint64` arithmetic:
`s.BackupTime+(uint64(*retentionDays))*86400 < uint64(time.Now().Unix())`. -/
def expired (retentionDays : Nat) (s : Snapshot) (now : Int) : Bool :=
  (s.BackupTime % 18446744073709551616
      + (retentionDays % 18446744073709551616) * 86400 % 18446744073709551616)
    % 18446744073709551616 < uint64 now

/-- Phase 1: the snapshots handed to `s.Delete`, in order. The clock is read once for each
snapshot; `clock i` is the reading taken for the snapshot at position `i`. -/
def retention (retentionDays : Nat) (clock : Nat → Int) : Nat → List Snapshot → List Snapshot
  | _, [] => []
  | i, s :: rest =>
    if expired retentionDays s (clock i) then
      if s.Protected = true then retention retentionDays clock (i + 1) rest
      else s :: retention retentionDays clock (i + 1) rest
    else retention retentionDays clock (i + 1) rest

/-- Phase 2, first pass: `knownHashes` from the `.fidx` objects under `backups/`. -/
def collectHashes : List Object → StrMap Bool → Outcome (StrMap Bool)
  | [], knownHashes => .ok knownHashes
  | object :: rest, knownHashes =>
    if !HasSuffix object.Key ".fidx" then collectHashes rest knownHashes
    else if object.Csum = "" then .fatal .noCsumMetadata
    else collectHashes rest (mapSet knownHashes object.Csum true)

/-- Phase 2, second pass: keys under `indexed/` sent to `RemoveObjects`. -/
def orphanedIndexed (knownHashes : StrMap Bool) (listing : List Object) : List String :=
  (listing.filter (fun object => (mapGet knownHashes object.Csum).isNone)).map (fun o => o.Key)

/-- The update of `knownChunks` for one digest: append the index key to the referrers of
`val`, starting from an empty list when `val` is not yet a key. -/
def addReferrer (knownChunks : StrMap (List String)) (val key : String) : StrMap (List String) :=
  match mapGet knownChunks val with
  | some known => mapSet knownChunks val (known ++ [key])
  | none => mapSet knownChunks val ([] ++ [key])

/-- The loop `for i := 0; i < len(data)/32; i++` of a fixed index, with `n` iterations left. -/
def fidxLoop (data : List Nat) (key : String) :
    Nat → Nat → StrMap (List String) → StrMap (List String)
  | 0, _, knownChunks => knownChunks
  | n + 1, i, knownChunks =>
    fidxLoop data key n (i + 1)
      (addReferrer knownChunks (EncodeToString (slice data (i * 32) ((i + 1) * 32))) key)

/-- The body of Phase 3 for a key ending in `.fidx`. -/
def markFixed (object : Object) (knownChunks : StrMap (List String)) :
    Outcome (StrMap (List String)) :=
  match object.content with
  | .accessError => .fatal .objectAccess
  | .readError => .fatal .objectRead
  | .data data =>
    if data.length < 4096 then .fatal .tooSmall
    else
      match compareSum (slice data 32 64) (data.drop 4096) object.Csum with
      | some _ => .fatal .checksumMismatch
      | none =>
        let data := data.drop 4096
        if data.length % 32 ≠ 0 then .fatal .unalignedFixedIndex
        else .ok (fidxLoop data object.Key (data.length / 32) 0 knownChunks)

/-- The record loop `for { ... }` of a dynamic index over `reader := data[4096:]`, with an
iteration budget. Each pass reads 8 bytes of offset (decoded for a debug print only) and 32
bytes of digest with `ReadAt` into fresh buffers, advances the `int64` cursor by 40, records
the digest, and stops when the cursor equals `reader.Len()`. -/
def didxLoop (reader : List Nat) (key : String) :
    Nat → Int → StrMap (List String) → Outcome (StrMap (List String))
  | 0, _, _ => .timeout
  | fuel + 1, offset, knownChunks =>
    let chunk_offset := ReadAt reader 8 offset
    let offset := int64 (offset + 8)
    let digest_offset := ReadAt reader 32 offset
    let offset := int64 (offset + 32)
    let _chunk_off := Uint64 chunk_offset
    let val := EncodeToString digest_offset
    let knownChunks := addReferrer knownChunks val key
    if offset = (reader.length : Int) then .ok knownChunks
    else didxLoop reader key fuel offset knownChunks

/-- The body of Phase 3 for a key ending in `.didx`. -/
def markDynamic (fuel : Nat) (object : Object) (knownChunks : StrMap (List String)) :
    Outcome (StrMap (List String)) :=
  match object.content with
  | .accessError => .fatal .objectAccess
  | .readError => .fatal .objectRead
  | .data data =>
    if data.length < 4096 then .fatal .tooSmall
    else
      match compareSum (slice data 32 64) (data.drop 4096) object.Csum with
      | some _ => .fatal .checksumMismatch
      | none => didxLoop (data.drop 4096) object.Key fuel 0 knownChunks

/-- The body of the Phase 3 loop for one listed object: the `.fidx` branch, then the `.didx`
branch. -/
def markObject (fuel : Nat) (object : Object) (knownChunks : StrMap (List String)) :
    Outcome (StrMap (List String)) :=
  (if HasSuffix object.Key ".fidx" then markFixed object knownChunks
    else .ok knownChunks).andThen fun knownChunks =>
  if HasSuffix object.Key ".didx" then markDynamic fuel object knownChunks
  else .ok knownChunks

/-- Phase 3: mark the used chunks over the listing of `backups/`. -/
def markUsedChunks (fuel : Nat) :
    List Object → StrMap (List String) → Outcome (StrMap (List String))
  | [], knownChunks => .ok knownChunks
  | object :: rest, knownChunks =>
    (markObject fuel object knownChunks).andThen (markUsedChunks fuel rest)

/-- The digest recovered from a chunk key: `strings.ReplaceAll(object.Key[7:], "/", "")`. -/
def chunkhash (key : String) : String :=
  String.mk ((key.data.drop 7).filter (fun c => c != '/'))

/-- Phase 4, the producer over the listing of `chunks/`: the keys sent to `RemoveObjects` and
the map `existingChunks`. -/
def sweepChunks (knownChunks : StrMap (List String)) :
    List Object → List String × StrMap Bool → List String × StrMap Bool
  | [], acc => acc
  | object :: rest, (removed, existingChunks) =>
    match mapGet knownChunks (chunkhash object.Key) with
    | none => sweepChunks knownChunks rest (removed ++ [object.Key], existingChunks)
    | some _ =>
      sweepChunks knownChunks rest (removed, mapSet existingChunks (chunkhash object.Key) true)

/-- The key of the corruption marker for a referrer:
`strings.Join(basepatht[0:len(basepatht)-1], "/") + "/corrupted"`. -/
def basepath (oname : String) : String := Join (Split oname '/').dropLast "/"

/-- Phase 5, inner loop over the referrers of a missing chunk. `putFails n` tells whether the
`PutObject` call number `n` of the run returns an error. Returns the puts issued so far and
whether the loop finished without a fatal exit. -/
def tagCorrupted (putFails : Nat → Bool) : List String → List Put → List Put × Bool
  | [], puts => (puts, true)
  | oname :: rest, puts =>
    let puts1 := puts ++ [Put.mk (basepath oname ++ "/corrupted") "CORRUPTED" 9]
    if putFails puts.length then (puts1, false)
    else tagCorrupted putFails rest puts1

/-- Phase 5: the integrity check over the entries of `knownChunks` in the order in which the
`range` statement visits them. -/
def integrityCheck (putFails : Nat → Bool) (existingChunks : StrMap Bool) :
    List (String × List String) → List Put → List Put × Bool
  | [], puts => (puts, true)
  | (k, v) :: rest, puts =>
    match mapGet existingChunks k with
    | some _ => integrityCheck putFails existingChunks rest puts
    | none =>
      match tagCorrupted putFails v puts with
      | (puts1, false) => (puts1, false)
      | (puts1, true) => integrityCheck putFails existingChunks rest puts1

/-- How the process ends. -/
inductive Exit where
  | success
  | fatal (e : Fatal)
  | hang
deriving DecidableEq, Repr

/-- What the collector needs from outside. -/
structure Env where
  /-- whether `mutex.Acquire` succeeds -/
  acquire : Bool
  /-- result of `BucketExists`, `none` for an error -/
  bucketExists : Option Bool
  /-- result of `ListSnapshots`, `none` for an error -/
  snapshots : Option (List Snapshot)
  /-- value of the `--retention` flag -/
  retentionDays : Nat
  /-- successive results of `time.Now().Unix()` in Phase 1 -/
  clock : Nat → Int
  /-- the objects of the bucket seen by the listings of Phases 2 to 4 -/
  bucket : List Object
  /-- order in which `range knownChunks` visits the entries -/
  rangeOrder : StrMap (List String) → StrMap (List String)
  /-- whether the n-th call of `PutObject` fails -/
  putFails : Nat → Bool
  /-- iteration budget of a record loop -/
  fuel : Nat

/-- Observable record of a run. -/
structure Run where
  lockAcquired : Bool
  lockReleased : Bool
  deletedSnapshots : List Snapshot
  removedIndexed : List String
  removedChunks : List String
  puts : List Put
  exit : Exit
deriving DecidableEq, Repr

/-- A run that ends where it stands, without releasing the lock. -/
def Run.stop (r : Run) (e : Exit) : Run := { r with exit := e }

/-- Source `main` from "Acquire Lock" onwards (the flags are parsed and the client is created
before the lock is requested). -/
def main (env : Env) : Run :=
  let r : Run := Run.mk false false [] [] [] [] Exit.success
  if env.acquire = false then r.stop (.fatal .lockNotAcquired)
  else
    let r := { r with lockAcquired := true }
    match env.bucketExists with
    | none => r.stop (.fatal .bucketInaccessible)
    | some false => r.stop (.fatal .bucketAbsent)
    | some true =>
      match env.snapshots with
      | none => r.stop (.fatal .snapshotListing)
      | some snapshots =>
        if snapshots.length = 0 then r.stop (.fatal .noSnapshots)
        else
          let r := { r with deletedSnapshots := retention env.retentionDays env.clock 0 snapshots }
          match collectHashes (ListObjects env.bucket "backups/") [] with
          | .fatal e => r.stop (.fatal e)
          | .timeout => r.stop .hang
          | .ok knownHashes =>
            let r := { r with
              removedIndexed := orphanedIndexed knownHashes (ListObjects env.bucket "indexed/") }
            match markUsedChunks env.fuel (ListObjects env.bucket "backups/") [] with
            | .fatal e => r.stop (.fatal e)
            | .timeout => r.stop .hang
            | .ok knownChunks =>
              let swept := sweepChunks knownChunks (ListObjects env.bucket "chunks/") ([], [])
              let r := { r with removedChunks := swept.1 }
              match integrityCheck env.putFails swept.2 (env.rangeOrder knownChunks) [] with
              | (puts, false) => { r with puts := puts, exit := .fatal .corruptionTagging }
              | (puts, true) => { r with puts := puts, lockReleased := true, exit := .success }

/-! ## Vocabulary of the properties -/

/-- Last `/`-separated segment of a key. -/
def lastSegment (oname : String) : String := (Split oname '/').getLastD ""

/-- The put that marks the snapshot of a referrer as corrupted. -/
def corruptedMarker (oname : String) : Put := Put.mk (basepath oname ++ "/corrupted") "CORRUPTED" 9

/-- The referrers added for a list of encoded digests, in order. -/
def addReferrers (knownChunks : StrMap (List String)) (vals : List String) (key : String) :
    StrMap (List String) :=
  vals.foldl (fun m val => addReferrer m val key) knownChunks

/-- Digests of the payload of a fixed index body, in order: the 32-byte blocks after the
4096-byte header. -/
def fixedDigests (b : List Nat) : List (List Nat) :=
  (List.range ((b.length - 4096) / 32)).map
    (fun i => slice b (4096 + 32 * i) (4096 + 32 * i + 32))

/-- Digests of the payload of a dynamic index body, in order: bytes 8 to 39 of each complete
40-byte record after the 4096-byte header. -/
def dynamicDigests (b : List Nat) : List (List Nat) :=
  (List.range ((b.length - 4096) / 40)).map
    (fun i => slice b (4096 + 40 * i + 8) (4096 + 40 * i + 40))

/-- The index object holds the digest `d` in its payload: as a 32-byte block
`b[4096+32i .. 4096+32i+32)` of a `.fidx`, or as bytes 8 to 39 of a 40-byte record
`b[4096+40i .. 4096+40i+40)` of a `.didx`. -/
def holdsDigest (idx : Object) (d : List Nat) : Prop :=
  ∃ b, idx.content = Fetch.data b ∧
    ((HasSuffix idx.Key ".fidx" = true ∧
        ∃ i, 4096 + 32 * i + 32 ≤ b.length ∧ d = slice b (4096 + 32 * i) (4096 + 32 * i + 32)) ∨
      (HasSuffix idx.Key ".didx" = true ∧
        ∃ i, 4096 + 40 * i + 40 ≤ b.length ∧
          d = slice b (4096 + 40 * i + 8) (4096 + 40 * i + 40)))

/-- Length of the body of an object, 0 when it cannot be fetched. -/
def Object.size (o : Object) : Nat :=
  match o.content with
  | Fetch.data b => b.length
  | _ => 0

/-- Digests held in the payload of an index object, computed: the blocks of a `.fidx`, the
record digests of a `.didx`, nothing for any other object. -/
def heldDigests (idx : Object) : List (List Nat) :=
  match idx.content with
  | Fetch.data b =>
    if HasSuffix idx.Key ".fidx" then fixedDigests b
    else if HasSuffix idx.Key ".didx" then dynamicDigests b
    else []
  | _ => []

/-! ## Concrete inputs used in the examples -/

/-- An index body: a 4096-byte header carrying the SHA-256 of the payload at bytes 32 to 63,
followed by the payload. -/
def exampleIndex (payload : List Nat) : List Nat :=
  List.replicate 32 0 ++ (Sum256 payload ++ (List.replicate 4032 0 ++ payload))

/-- An index object with a well-formed header and the matching checksum metadata. -/
def exampleObject (key : String) (payload : List Nat) : Object :=
  Object.mk key (EncodeToString (Sum256 payload)) (Fetch.data (exampleIndex payload))

/-- A fixed index referencing the digests `aa..aa` and `bb..bb`. -/
def exampleFixed : Object :=
  exampleObject "backups/vm/100/2024-01-01T00:00:00Z/drive-scsi0.img.fidx"
    (List.replicate 32 170 ++ List.replicate 32 187)

/-- A dynamic index with two records, referencing the digests `cc..cc` and `dd..dd`. -/
def exampleDynamic : Object :=
  exampleObject "backups/ct/200/2024-01-01T00:00:00Z/root.pxar.didx"
    (List.replicate 8 1 ++ List.replicate 32 204 ++ List.replicate 8 2 ++ List.replicate 32 221)

/-- A chunk object whose digest is 64 times the hexadecimal digit `c`. -/
def exampleChunk (c : Char) : Object :=
  Object.mk ("chunks/" ++ String.mk (List.replicate 4 c) ++ "/" ++ String.mk (List.replicate 60 c))
    "" (Fetch.data [])

/-- A run with the lock acquired and the bucket present, retention 60 days, a constant clock,
puts that succeed, and a budget of 8 passes for each record loop. -/
def exampleEnv (snapshots : List Snapshot) (bucket : List Object) : Env :=
  Env.mk true (some true) (some snapshots) 60 (fun _ => 1700000000) bucket id (fun _ => false) 8

/-- The bucket of the examples: two indexes, a referenced chunk and an unreferenced one. -/
def exampleBucket : List Object :=
  [exampleFixed, exampleDynamic, exampleChunk 'a', exampleChunk 'e']

/-- The map `knownChunks` that Phase 3 builds on `exampleBucket`. -/
def exampleKnown : StrMap (List String) :=
  [(EncodeToString (List.replicate 32 170), [exampleFixed.Key]),
   (EncodeToString (List.replicate 32 187), [exampleFixed.Key]),
   (EncodeToString (List.replicate 32 204), [exampleDynamic.Key]),
   (EncodeToString (List.replicate 32 221), [exampleDynamic.Key])]

/-! ## Maps and referrer lists -/

theorem mapGet_mapSet {β : Type} (m : StrMap β) (k h : String) (v : β) :
    mapGet (mapSet m k v) h = if k = h then some v else mapGet m h := by
  induction m with
  | nil => simp [mapSet, mapGet]
  | cons a rest ih =>
    obtain ⟨k', v'⟩ := a
    unfold mapSet
    split
    · rename_i hk
      subst hk
      by_cases hh : k' = h <;> simp [mapGet, hh]
    · rename_i hk
      by_cases hh : k' = h
      · subst hh
        simp [mapGet, Ne.symm hk, hk]
      · simp [mapGet, hh, ih]

theorem mapGet_addReferrer (m : StrMap (List String)) (val key h : String) :
    mapGet (addReferrer m val key) h =
      if val = h then some ((mapGet m h).getD [] ++ [key]) else mapGet m h := by
  unfold addReferrer
  split
  · rename_i known hk
    rw [mapGet_mapSet]
    split
    · rename_i hv
      subst hv
      simp [hk]
    · rfl
  · rename_i hk
    rw [mapGet_mapSet]
    split
    · rename_i hv
      subst hv
      simp [hk]
    · rfl

theorem mapGet_addReferrers (m : StrMap (List String)) (vals : List String) (key h : String) :
    ((mapGet (addReferrers m vals key) h).getD [] =
        (mapGet m h).getD [] ++ List.replicate (vals.count h) key) ∧
      ((mapGet (addReferrers m vals key) h).isSome =
        ((mapGet m h).isSome || decide (h ∈ vals))) ∧
      (h ∉ vals → mapGet (addReferrers m vals key) h = mapGet m h) := by
  induction vals generalizing m with
  | nil => simp [addReferrers]
  | cons val rest ih =>
    have hstep : addReferrers m (val :: rest) key =
        addReferrers (addReferrer m val key) rest key := rfl
    rw [hstep]
    obtain ⟨h1, h2, h3⟩ := ih (addReferrer m val key)
    rw [h1, h2, mapGet_addReferrer]
    by_cases hv : val = h
    · subst hv
      refine ⟨?_, ?_, ?_⟩
      · simp [List.count_cons, List.replicate_succ']
        rw [← List.replicate_succ', List.replicate_succ]
      · simp
      · intro hn
        simp at hn
    · refine ⟨?_, ?_, ?_⟩
      · simp [hv, List.count_cons]
      · simp [hv, Ne.symm hv]
      · intro hn
        rw [h3 (fun hm => hn (List.mem_cons_of_mem _ hm)), mapGet_addReferrer]
        simp [hv]

/-! ## Phase 3, fixed index -/

theorem slice_drop (b : List Nat) (a lo hi : Nat) :
    slice (b.drop a) lo hi = slice b (a + lo) (a + hi) := by
  unfold slice
  rw [List.take_drop, List.drop_drop]

theorem fidxLoop_eq (data : List Nat) (key : String) (n i : Nat) (m : StrMap (List String)) :
    fidxLoop data key n i m =
      addReferrers m ((List.range' i n).map
        (fun t => EncodeToString (slice data (t * 32) ((t + 1) * 32)))) key := by
  induction n generalizing i m with
  | zero => rfl
  | succ n ih =>
    unfold fidxLoop
    rw [ih]
    rfl

theorem fidxLoop_drop (b : List Nat) (key : String) (m : StrMap (List String)) :
    fidxLoop (b.drop 4096) key ((b.drop 4096).length / 32) 0 m =
      addReferrers m ((fixedDigests b).map EncodeToString) key := by
  rw [fidxLoop_eq, fixedDigests, List.length_drop, List.range_eq_range', List.map_map]
  congr 1
  apply List.map_congr_left
  intro t _
  simp only [Function.comp]
  rw [slice_drop]
  congr 2 <;> omega

theorem fidx_not_didx (k : String) (h : HasSuffix k ".fidx" = true) :
    HasSuffix k ".didx" = false := by
  unfold HasSuffix at *
  rw [List.isSuffixOf] at *
  have e1 : (".fidx" : String).data.reverse = ['x', 'd', 'i', 'f', '.'] := by decide
  have e2 : (".didx" : String).data.reverse = ['x', 'd', 'i', 'd', '.'] := by decide
  rw [e1] at h
  rw [e2]
  generalize k.data.reverse = r at *
  rcases r with _ | ⟨a, _ | ⟨b, _ | ⟨c, _ | ⟨d, r⟩⟩⟩⟩ <;> simp [List.isPrefixOf] at h ⊢
  intro _ _ _ hd
  rw [← h.2.2.2.1] at hd
  exact absurd hd (by decide)

/-! ## Checksum validation -/

theorem compareSum_eq_none_iff (csum index : List Nat) (m : String) :
    compareSum csum index m = none ↔
      EncodeToString csum = EncodeToString (Sum256 index) ∧ EncodeToString csum = m := by
  unfold compareSum
  dsimp only
  split
  · rename_i h
    simp only [reduceCtorEq, false_iff, not_and_or]
    exact h
  · rename_i h
    simp only [not_or, not_not, ne_eq] at h
    simp [h.1, h.2]
    rw [← h.2, h.1]

theorem compareSum_ne_none_iff (csum index : List Nat) (m : String) :
    (∃ msg, compareSum csum index m = some msg) ↔
      ¬ (EncodeToString csum = EncodeToString (Sum256 index) ∧ EncodeToString csum = m) := by
  rw [← compareSum_eq_none_iff]
  cases compareSum csum index m <;> simp

/-- C3 (csum tri-equality). For every index body of at least 4096 bytes and every metadata
string `m`, `compareSum(body[32:64], body[4096:], m)` returns `nil` if and only if the
lowercase hex of the header bytes `body[32..64)`, the metadata csum `m` and the lowercase hex
of the SHA-256 of `body[4096..]` are all three equal; any disagreement returns an error. -/
theorem compareSum_accepts_iff (body : List Nat) (m : String) (_hlen : 4096 ≤ body.length) :
    (compareSum (slice body 32 64) (body.drop 4096) m = none ↔
      (EncodeToString (slice body 32 64) = m ∧
        m = EncodeToString (Sum256 (body.drop 4096)) ∧
        EncodeToString (slice body 32 64) = EncodeToString (Sum256 (body.drop 4096)))) ∧
    (¬ (EncodeToString (slice body 32 64) = m ∧
        m = EncodeToString (Sum256 (body.drop 4096)) ∧
        EncodeToString (slice body 32 64) = EncodeToString (Sum256 (body.drop 4096))) →
      ∃ msg, compareSum (slice body 32 64) (body.drop 4096) m = some msg) := by
  constructor
  · rw [compareSum_eq_none_iff]
    constructor
    · rintro ⟨h1, h2⟩
      exact ⟨h2, h2.symm.trans h1, h1⟩
    · rintro ⟨h1, _, h3⟩
      exact ⟨h3, h1⟩
  · intro h
    rw [compareSum_ne_none_iff]
    rintro ⟨h1, h2⟩
    exact h ⟨h2, h2.symm.trans h1, h1⟩

theorem compareSum_accepts_iff_witness :
    compareSum (slice (exampleIndex [1, 2, 3]) 32 64) ((exampleIndex [1, 2, 3]).drop 4096)
        "039058c6f2c0cb492c533b0a4d14ef77cc0f78abccced5287d84a1a2011cfb81" = none ∧
      compareSum (slice (exampleIndex [1, 2, 3]) 32 64) ((exampleIndex [1, 2, 3]).drop 4096)
        "139058c6f2c0cb492c533b0a4d14ef77cc0f78abccced5287d84a1a2011cfb81" ≠ none :=
  have hlen : 4096 ≤ (exampleIndex [1, 2, 3]).length := by decide!
  ⟨((compareSum_accepts_iff (exampleIndex [1, 2, 3]) _ hlen).1).2
      ⟨by decide!, by decide!, by decide!⟩,
    fun h => absurd (((compareSum_accepts_iff (exampleIndex [1, 2, 3]) _ hlen).1).1 h).1
      (by decide!)⟩

theorem markFixed_data (k m : String) (b : List Nat) (known : StrMap (List String)) :
    markFixed (Object.mk k m (Fetch.data b)) known =
      if b.length < 4096 then Outcome.fatal Fatal.tooSmall
      else if compareSum (slice b 32 64) (b.drop 4096) m ≠ none then
        Outcome.fatal Fatal.checksumMismatch
      else if (b.length - 4096) % 32 ≠ 0 then Outcome.fatal Fatal.unalignedFixedIndex
      else Outcome.ok (addReferrers known ((fixedDigests b).map EncodeToString) k) := by
  unfold markFixed
  dsimp only
  split
  · rfl
  · split
    · rename_i msg hc
      simp [hc]
    · rename_i hc
      simp only [hc, ne_eq, not_true_eq_false, if_false, List.length_drop]
      split
      · rfl
      · rw [← fidxLoop_drop, List.length_drop]

theorem markObject_fidx (fuel : Nat) (k m : String) (c : Fetch)
    (known : StrMap (List String)) (hk : HasSuffix k ".fidx" = true) :
    markObject fuel (Object.mk k m c) known = markFixed (Object.mk k m c) known := by
  unfold markObject
  simp only [hk, fidx_not_didx k hk, if_true]
  cases markFixed (Object.mk k m c) known <;> simp [Outcome.andThen]

theorem markUsedChunks_not_ok (fuel : Nat) (o : Object) (listing : List Object)
    (ho : o ∈ listing) (hfatal : ∀ known, ∃ e, markObject fuel o known = Outcome.fatal e)
    (known0 known1 : StrMap (List String)) :
    markUsedChunks fuel listing known0 ≠ Outcome.ok known1 := by
  induction listing generalizing known0 with
  | nil => simp at ho
  | cons a rest ih =>
    unfold markUsedChunks
    rcases List.mem_cons.1 ho with h | h
    · subst h
      obtain ⟨e, he⟩ := hfatal known0
      simp [he, Outcome.andThen]
    · cases hm : markObject fuel a known0 with
      | ok known2 => simpa [Outcome.andThen] using ih h known2
      | fatal e => simp [Outcome.andThen]
      | timeout => simp [Outcome.andThen]

theorem main_removedChunks_nil (env : Env)
    (h : ∀ known, markUsedChunks env.fuel (ListObjects env.bucket "backups/") [] ≠
      Outcome.ok known) :
    (main env).removedChunks = [] := by
  unfold main
  simp only [Run.stop]
  split
  · rfl
  · split
    · rfl
    · rfl
    · split
      · rfl
      · split
        · rfl
        · split
          · rfl
          · rfl
          · split
            · rfl
            · rfl
            · rename_i known hk
              exact absurd hk (h known)

/-- C4 (fixed-index parsing). For a key ending in `.fidx` with body `b` and metadata csum
`m`: if `len(b) < 4096`, or the checksum validation fails, or `(len(b) - 4096) mod 32 ≠ 0`,
processing the object is a fatal exit, and no run whose listing of `backups/` contains the
object sends any key to the chunk delete stream. Otherwise processing succeeds, and the new
`knownChunks` is the old one with the key appended to the entry of the hex of each 32-byte
block, in the order of the blocks: for every string `h` the referrers of `h` are the old
ones followed by one copy of the key per block whose hex is `h`, `h` is a key afterwards iff
it was one before or is the hex of a block, and the entry of any other `h` is unchanged. -/
theorem fixed_index_processing (fuel : Nat) (k m : String) (b : List Nat)
    (known : StrMap (List String)) (hk : HasSuffix k ".fidx" = true) :
    ((b.length < 4096 ∨ compareSum (slice b 32 64) (b.drop 4096) m ≠ none ∨
        (b.length - 4096) % 32 ≠ 0) →
      (∃ e, markObject fuel (Object.mk k m (Fetch.data b)) known = Outcome.fatal e) ∧
      ∀ env : Env, Object.mk k m (Fetch.data b) ∈ ListObjects env.bucket "backups/" →
        (main env).removedChunks = []) ∧
    (¬ (b.length < 4096 ∨ compareSum (slice b 32 64) (b.drop 4096) m ≠ none ∨
        (b.length - 4096) % 32 ≠ 0) →
      markObject fuel (Object.mk k m (Fetch.data b)) known =
        Outcome.ok (addReferrers known ((fixedDigests b).map EncodeToString) k) ∧
      ∀ h : String,
        (mapGet (addReferrers known ((fixedDigests b).map EncodeToString) k) h).getD [] =
          (mapGet known h).getD [] ++
            List.replicate (((fixedDigests b).map EncodeToString).count h) k ∧
        ((mapGet (addReferrers known ((fixedDigests b).map EncodeToString) k) h).isSome =
          ((mapGet known h).isSome || decide (h ∈ (fixedDigests b).map EncodeToString))) ∧
        (h ∉ (fixedDigests b).map EncodeToString →
          mapGet (addReferrers known ((fixedDigests b).map EncodeToString) k) h =
            mapGet known h)) := by
  have hfatal : (b.length < 4096 ∨ compareSum (slice b 32 64) (b.drop 4096) m ≠ none ∨
      (b.length - 4096) % 32 ≠ 0) → ∀ fuel' known',
      ∃ e, markObject fuel' (Object.mk k m (Fetch.data b)) known' = Outcome.fatal e := by
    intro hbad fuel' known'
    rw [markObject_fidx _ _ _ _ _ hk, markFixed_data]
    split
    · exact ⟨_, rfl⟩
    · split
      · exact ⟨_, rfl⟩
      · split
        · exact ⟨_, rfl⟩
        · rename_i h1 h2 h3
          rcases hbad with h | h | h
          · exact absurd h h1
          · exact absurd h h2
          · exact absurd h h3
  constructor
  · intro hbad
    refine ⟨hfatal hbad fuel known, ?_⟩
    intro env hmem
    apply main_removedChunks_nil
    intro known1
    exact markUsedChunks_not_ok env.fuel _ _ hmem (hfatal hbad env.fuel) [] known1
  · intro hgood
    simp only [not_or] at hgood
    refine ⟨?_, fun h => mapGet_addReferrers known _ k h⟩
    rw [markObject_fidx _ _ _ _ _ hk, markFixed_data]
    simp [hgood.1, hgood.2.1, hgood.2.2]

theorem fixed_index_processing_witness :
    markObject 0 exampleFixed [] =
        Outcome.ok [(EncodeToString (List.replicate 32 170), [exampleFixed.Key]),
          (EncodeToString (List.replicate 32 187), [exampleFixed.Key])] ∧
      (main (exampleEnv [Snapshot.mk "vm/100" 1699999000 false]
        [exampleObject "backups/vm/100/a.fidx" (List.replicate 17 5),
          exampleChunk 'e'])).removedChunks = [] :=
  ⟨((fixed_index_processing 0 exampleFixed.Key exampleFixed.Csum
        (exampleIndex (List.replicate 32 170 ++ List.replicate 32 187)) []
        (by decide!)).2 (by decide!)).1.trans (by decide!),
    ((fixed_index_processing 0 "backups/vm/100/a.fidx"
        (EncodeToString (Sum256 (List.replicate 17 5)))
        (exampleIndex (List.replicate 17 5)) [] (by decide!)).1
        (Or.inr (Or.inr (by decide!)))).2
      (exampleEnv [Snapshot.mk "vm/100" 1699999000 false]
        [exampleObject "backups/vm/100/a.fidx" (List.replicate 17 5), exampleChunk 'e'])
      (by decide!)⟩

/-! ## Phase 3, dynamic index -/

theorem int64_of_small (x : Int) (h1 : -9223372036854775808 ≤ x) (h2 : x < 9223372036854775808) :
    int64 x = x := by
  unfold int64
  omega

theorem ReadAt_inside (s : List Nat) (n off : Nat) (hn : 0 < n) (h : off + n ≤ s.length) :
    ReadAt s n (off : Int) = slice s off (off + n) := by
  unfold ReadAt slice
  have h1 : ¬ ((off : Int) < 0) := by omega
  have h2 : ¬ ((s.length : Int) ≤ (off : Int)) := by omega
  simp only [h1, h2, if_false, Int.toNat_ofNat]
  have hl : ((s.drop off).take n).length = n := by
    simp
    omega
  rw [hl, Nat.sub_self, List.replicate_zero, List.append_nil, List.take_drop]

theorem didxLoop_step (reader : List Nat) (key : String) (fuel j : Nat)
    (m : StrMap (List String)) (hj : 40 * j + 40 < 9223372036854775808) :
    didxLoop reader key (fuel + 1) ((40 * j : Nat) : Int) m =
      if 40 * (j + 1) = reader.length then
        Outcome.ok (addReferrer m (EncodeToString (ReadAt reader 32 ((40 * j + 8 : Nat) : Int))) key)
      else
        didxLoop reader key fuel ((40 * (j + 1) : Nat) : Int)
          (addReferrer m (EncodeToString (ReadAt reader 32 ((40 * j + 8 : Nat) : Int))) key) := by
  rw [didxLoop]
  have e1 : int64 (((40 * j : Nat) : Int) + 8) = ((40 * j + 8 : Nat) : Int) := by
    rw [int64_of_small] <;> push_cast <;> omega
  have e2 : int64 (((40 * j + 8 : Nat) : Int) + 32) = ((40 * (j + 1) : Nat) : Int) := by
    rw [int64_of_small] <;> push_cast <;> omega
  simp only [e1, e2, Nat.cast_inj]

theorem didxLoop_ne_fatal (reader : List Nat) (key : String) (fuel : Nat) (off : Int)
    (m : StrMap (List String)) (e : Fatal) :
    didxLoop reader key fuel off m ≠ Outcome.fatal e := by
  induction fuel generalizing off m with
  | zero => simp [didxLoop]
  | succ fuel ih =>
    rw [didxLoop]
    split
    · simp
    · exact ih _ _

theorem didxLoop_timeout (reader : List Nat) (key : String) (fuel j : Nat)
    (m : StrMap (List String)) (hfuel : 40 * (j + fuel) < 9223372036854775808)
    (hne : ∀ t, j < t → t ≤ j + fuel → 40 * t ≠ reader.length) :
    didxLoop reader key fuel ((40 * j : Nat) : Int) m = Outcome.timeout := by
  induction fuel generalizing j m with
  | zero => simp [didxLoop]
  | succ fuel ih =>
    rw [didxLoop_step _ _ _ _ _ (by omega)]
    have h1 : 40 * (j + 1) ≠ reader.length := hne (j + 1) (by omega) (by omega)
    simp only [h1, if_false]
    apply ih
    · omega
    · intro t ht1 ht2
      exact hne t (by omega) (by omega)

theorem didxLoop_aligned (reader : List Nat) (key : String) (n d : Nat) :
    ∀ (fuel j : Nat) (m : StrMap (List String)), reader.length = 40 * n → j + d + 1 = n →
      d + 1 ≤ fuel → 40 * n < 9223372036854775808 →
      didxLoop reader key fuel ((40 * j : Nat) : Int) m =
        Outcome.ok (addReferrers m ((List.range' j (d + 1)).map
          (fun t => EncodeToString (slice reader (40 * t + 8) (40 * t + 40)))) key) := by
  induction d with
  | zero =>
    intro fuel j m hlen hj hfuel hn
    obtain ⟨fuel', rfl⟩ : ∃ f, fuel = f + 1 := ⟨fuel - 1, by omega⟩
    rw [didxLoop_step _ _ _ _ _ (by omega)]
    have h1 : 40 * (j + 1) = reader.length := by omega
    simp only [h1, if_true]
    rw [ReadAt_inside _ _ _ (by omega) (by omega)]
    rfl
  | succ d ih =>
    intro fuel j m hlen hj hfuel hn
    obtain ⟨fuel', rfl⟩ : ∃ f, fuel = f + 1 := ⟨fuel - 1, by omega⟩
    rw [didxLoop_step _ _ _ _ _ (by omega)]
    have h1 : 40 * (j + 1) ≠ reader.length := by omega
    simp only [h1, if_false]
    rw [ih fuel' (j + 1) _ hlen (by omega) (by omega) hn]
    rw [ReadAt_inside _ _ _ (by omega) (by omega)]
    rfl

theorem didxLoop_ok_aligned (reader : List Nat) (key : String) (fuel j : Nat)
    (m m1 : StrMap (List String)) (hfuel : 40 * (j + fuel) < 9223372036854775808)
    (hok : didxLoop reader key fuel ((40 * j : Nat) : Int) m = Outcome.ok m1) :
    ∃ n, j < n ∧ n ≤ j + fuel ∧ reader.length = 40 * n := by
  induction fuel generalizing j m with
  | zero => simp [didxLoop] at hok
  | succ fuel ih =>
    rw [didxLoop_step _ _ _ _ _ (by omega)] at hok
    by_cases h1 : 40 * (j + 1) = reader.length
    · exact ⟨j + 1, by omega, by omega, h1.symm⟩
    · simp only [h1, if_false] at hok
      obtain ⟨n, hn1, hn2, hn3⟩ := ih (j + 1) _ (by omega) hok
      exact ⟨n, by omega, by omega, hn3⟩

theorem didxLoop_mono (reader : List Nat) (key : String) (fuel : Nat) (off : Int)
    (m m1 : StrMap (List String)) (h : String)
    (hok : didxLoop reader key fuel off m = Outcome.ok m1)
    (hm : (mapGet m h).isSome = true) : (mapGet m1 h).isSome = true := by
  induction fuel generalizing off m with
  | zero => simp [didxLoop] at hok
  | succ fuel ih =>
    rw [didxLoop] at hok
    have hstep : ∀ val, (mapGet (addReferrer m val key) h).isSome = true := by
      intro val
      rw [mapGet_addReferrer]
      split
      · rfl
      · exact hm
    split at hok
    · simp only [Outcome.ok.injEq] at hok
      rw [← hok]
      exact hstep _
    · exact ih _ _ hok (hstep _)

theorem didxLoop_covers (reader : List Nat) (key : String) (fuel j : Nat)
    (m m1 : StrMap (List String)) (hlen : reader.length < 9223372036854775808)
    (hok : didxLoop reader key fuel ((40 * j : Nat) : Int) m = Outcome.ok m1)
    (t : Nat) (hjt : j ≤ t) (ht : 40 * t + 40 ≤ reader.length) :
    (mapGet m1 (EncodeToString (slice reader (40 * t + 8) (40 * t + 40)))).isSome = true := by
  induction fuel generalizing j m with
  | zero => simp [didxLoop] at hok
  | succ fuel ih =>
    rw [didxLoop_step _ _ _ _ _ (by omega)] at hok
    rw [ReadAt_inside _ _ _ (by omega) (by omega)] at hok
    have hrec : ∀ m2 : StrMap (List String), (mapGet (addReferrer m2
        (EncodeToString (slice reader (40 * j + 8) (40 * j + 8 + 32))) key)
        (EncodeToString (slice reader (40 * j + 8) (40 * j + 8 + 32)))).isSome = true := by
      intro m2
      rw [mapGet_addReferrer]
      simp
    by_cases h1 : 40 * (j + 1) = reader.length
    · simp only [h1, if_true, Outcome.ok.injEq] at hok
      have htj : t = j := by omega
      subst htj
      rw [← hok]
      exact hrec m
    · simp only [h1, if_false] at hok
      by_cases htj : t = j
      · subst htj
        exact didxLoop_mono _ _ _ _ _ _ _ hok (hrec m)
      · exact ih (j + 1) _ hok (by omega)

theorem markDynamic_data (fuel : Nat) (k m : String) (b : List Nat)
    (known : StrMap (List String)) :
    markDynamic fuel (Object.mk k m (Fetch.data b)) known =
      if b.length < 4096 then Outcome.fatal Fatal.tooSmall
      else if compareSum (slice b 32 64) (b.drop 4096) m ≠ none then
        Outcome.fatal Fatal.checksumMismatch
      else didxLoop (b.drop 4096) k fuel 0 known := by
  unfold markDynamic
  dsimp only
  split
  · rfl
  · split
    · rename_i msg hc
      simp [hc]
    · rename_i hc
      simp [hc]

theorem markObject_didx (fuel : Nat) (k m : String) (c : Fetch)
    (known : StrMap (List String)) (hk : HasSuffix k ".didx" = true) :
    markObject fuel (Object.mk k m c) known = markDynamic fuel (Object.mk k m c) known := by
  have hf : HasSuffix k ".fidx" = false := by
    cases h : HasSuffix k ".fidx"
    · rfl
    · rw [fidx_not_didx k h] at hk
      exact absurd hk (by simp)
  unfold markObject
  simp [hk, hf, Outcome.andThen]

theorem dynamicDigests_eq (b : List Nat) (n : Nat) (hlen : b.length = 4096 + 40 * n) :
    (List.range' 0 n).map
        (fun t => EncodeToString (slice (b.drop 4096) (40 * t + 8) (40 * t + 40))) =
      (dynamicDigests b).map EncodeToString := by
  unfold dynamicDigests
  have hn : (b.length - 4096) / 40 = n := by omega
  rw [hn, List.range_eq_range', List.map_map]
  apply List.map_congr_left
  intro t _
  simp only [Function.comp]
  rw [slice_drop]
  congr 2

/-- The record loop on a well-formed dynamic index with at least one record: it stops after
`n` passes and appends the key once per record, under the hex of the digest of the record. -/
theorem markObject_didx_aligned (fuel n : Nat) (k m : String) (b : List Nat)
    (known : StrMap (List String)) (hk : HasSuffix k ".didx" = true)
    (hlen : b.length = 4096 + 40 * n) (hn : 1 ≤ n) (hfit : b.length < 9223372036854775808)
    (hsum : compareSum (slice b 32 64) (b.drop 4096) m = none) (hfuel : n ≤ fuel) :
    markObject fuel (Object.mk k m (Fetch.data b)) known =
      Outcome.ok (addReferrers known ((dynamicDigests b).map EncodeToString) k) := by
  rw [markObject_didx _ _ _ _ _ hk, markDynamic_data]
  have h1 : ¬ b.length < 4096 := by omega
  simp only [h1, hsum, ne_eq, not_true_eq_false, if_false]
  have h0 : (0 : Int) = ((40 * 0 : Nat) : Int) := by simp
  rw [h0, didxLoop_aligned (b.drop 4096) k n (n - 1) fuel 0 known (by rw [List.length_drop]; omega) (by omega)
    (by omega) (by omega)]
  have hn1 : n - 1 + 1 = n := by omega
  rw [hn1, dynamicDigests_eq b n hlen]

/-- C5 at the failing input, a dynamic index without records. For a key ending in `.didx`
whose body is the 4096-byte header alone and passes the checksum validation, the first pass
of the record loop reads past the end, records the key under the hex of 32 zero bytes and
moves the cursor to 40, which is not the length 0 of the payload; the loop is still running
after any number of passes up to `2^57`, and Phase 3 never returns for this object. -/
theorem empty_dynamic_index_loops (fuel : Nat) (k m : String) (b : List Nat)
    (known : StrMap (List String)) (hk : HasSuffix k ".didx" = true)
    (hlen : b.length = 4096)
    (hsum : compareSum (slice b 32 64) (b.drop 4096) m = none)
    (hfuel : fuel ≤ 144115188075855872) :
    markObject fuel (Object.mk k m (Fetch.data b)) known = Outcome.timeout ∧
      didxLoop (b.drop 4096) k (fuel + 1) 0 known =
        didxLoop (b.drop 4096) k fuel 40
          (addReferrer known (EncodeToString (List.replicate 32 0)) k) := by
  have hnil : b.drop 4096 = [] := by
    apply List.drop_eq_nil_of_le
    omega
  constructor
  · rw [markObject_didx _ _ _ _ _ hk, markDynamic_data]
    have h1 : ¬ b.length < 4096 := by omega
    simp only [h1, hsum, ne_eq, not_true_eq_false, if_false]
    have h0 : (0 : Int) = ((40 * 0 : Nat) : Int) := by simp
    rw [h0]
    apply didxLoop_timeout
    · omega
    · intro t ht _
      rw [hnil]
      simp
      omega
  · rw [hnil]
    have h0 : (0 : Int) = ((40 * 0 : Nat) : Int) := by simp
    rw [h0, didxLoop_step _ _ _ _ _ (by omega)]
    simp [ReadAt]

theorem empty_dynamic_index_loops_witness :
    markObject 100 (exampleObject "backups/ct/200/a/root.pxar.didx" []) [] =
        Outcome.timeout ∧
      didxLoop ((exampleIndex []).drop 4096) "backups/ct/200/a/root.pxar.didx" (100 + 1) 0 [] =
        didxLoop ((exampleIndex []).drop 4096) "backups/ct/200/a/root.pxar.didx" 100 40
          (addReferrer [] (EncodeToString (List.replicate 32 0))
            "backups/ct/200/a/root.pxar.didx") :=
  empty_dynamic_index_loops 100 "backups/ct/200/a/root.pxar.didx"
    (EncodeToString (Sum256 [])) (exampleIndex []) [] (by decide!) (by decide!) (by decide!)
    (by decide!)

/-- C6 at the failing inputs, a dynamic index with a partial trailing record. For a key
ending in `.didx` whose body has at least 4096 bytes, passes the checksum validation and has
`(len(body) - 4096) mod 40 ≠ 0`, processing never ends by a fatal exit, whatever the number
of passes of the record loop; the cursor steps over the end of the payload and the loop is
still running after any number of passes up to `2^57`. -/
theorem unaligned_dynamic_index_not_rejected (fuel : Nat) (k m : String) (b : List Nat)
    (known : StrMap (List String)) (hk : HasSuffix k ".didx" = true)
    (hlen : 4096 ≤ b.length)
    (hsum : compareSum (slice b 32 64) (b.drop 4096) m = none)
    (hmis : (b.length - 4096) % 40 ≠ 0) :
    (∀ e, markObject fuel (Object.mk k m (Fetch.data b)) known ≠ Outcome.fatal e) ∧
      (fuel ≤ 144115188075855872 →
        markObject fuel (Object.mk k m (Fetch.data b)) known = Outcome.timeout) := by
  rw [markObject_didx _ _ _ _ _ hk, markDynamic_data]
  have h1 : ¬ b.length < 4096 := by omega
  simp only [h1, hsum, ne_eq, not_true_eq_false, if_false]
  constructor
  · intro e
    exact didxLoop_ne_fatal _ _ _ _ _ _
  · intro hfuel
    have h0 : (0 : Int) = ((40 * 0 : Nat) : Int) := by simp
    rw [h0]
    apply didxLoop_timeout
    · omega
    · intro t _ _
      rw [List.length_drop]
      omega

theorem unaligned_dynamic_index_not_rejected_witness :
    (∀ e, markObject 100 (exampleObject "backups/ct/200/a/root.pxar.didx"
        (List.replicate 57 5)) [] ≠ Outcome.fatal e) ∧
      ((100 : Nat) ≤ 144115188075855872 →
        markObject 100 (exampleObject "backups/ct/200/a/root.pxar.didx"
          (List.replicate 57 5)) [] = Outcome.timeout) :=
  unaligned_dynamic_index_not_rejected 100 "backups/ct/200/a/root.pxar.didx"
    (EncodeToString (Sum256 (List.replicate 57 5))) (exampleIndex (List.replicate 57 5)) []
    (by decide!) (by decide!) (by decide!) (by decide!)

/-! ## Phases 3 and 4: mark and sweep -/

theorem markObject_other (fuel : Nat) (o : Object) (known : StrMap (List String))
    (hf : HasSuffix o.Key ".fidx" = false) (hd : HasSuffix o.Key ".didx" = false) :
    markObject fuel o known = Outcome.ok known := by
  simp [markObject, hf, hd, Outcome.andThen]

theorem markFixed_ok (k m : String) (c : Fetch) (known known1 : StrMap (List String))
    (hok : markFixed (Object.mk k m c) known = Outcome.ok known1) :
    ∃ b, c = Fetch.data b ∧ 4096 ≤ b.length ∧ (b.length - 4096) % 32 = 0 ∧
      known1 = addReferrers known ((fixedDigests b).map EncodeToString) k := by
  cases c with
  | accessError => simp [markFixed] at hok
  | readError => simp [markFixed] at hok
  | data b =>
    rw [markFixed_data] at hok
    split at hok
    · simp at hok
    · split at hok
      · simp at hok
      · split at hok
        · simp at hok
        · rename_i h1 _ h3
          simp only [Outcome.ok.injEq] at hok
          exact ⟨b, rfl, by omega, by omega, hok.symm⟩

theorem markDynamic_ok (fuel : Nat) (k m : String) (c : Fetch)
    (known known1 : StrMap (List String))
    (hok : markDynamic fuel (Object.mk k m c) known = Outcome.ok known1) :
    ∃ b, c = Fetch.data b ∧ 4096 ≤ b.length ∧
      didxLoop (b.drop 4096) k fuel 0 known = Outcome.ok known1 := by
  cases c with
  | accessError => simp [markDynamic] at hok
  | readError => simp [markDynamic] at hok
  | data b =>
    rw [markDynamic_data] at hok
    split at hok
    · simp at hok
    · split at hok
      · simp at hok
      · exact ⟨b, rfl, by omega, hok⟩

theorem mem_fixedDigests (b d : List Nat) :
    d ∈ fixedDigests b ↔
      ∃ i, i < (b.length - 4096) / 32 ∧ d = slice b (4096 + 32 * i) (4096 + 32 * i + 32) := by
  unfold fixedDigests
  simp only [List.mem_map, List.mem_range]
  constructor
  · rintro ⟨i, hi, rfl⟩
    exact ⟨i, hi, rfl⟩
  · rintro ⟨i, hi, rfl⟩
    exact ⟨i, hi, rfl⟩

theorem markObject_covers (fuel : Nat) (o : Object) (known known1 : StrMap (List String))
    (hfit : o.size < 9223372036854775808)
    (hok : markObject fuel o known = Outcome.ok known1) :
    (∀ h, (mapGet known h).isSome = true → (mapGet known1 h).isSome = true) ∧
      ∀ d, holdsDigest o d → (mapGet known1 (EncodeToString d)).isSome = true := by
  obtain ⟨k, m, c⟩ := o
  cases hf : HasSuffix k ".fidx"
  · cases hd : HasSuffix k ".didx"
    · rw [markObject_other _ _ _ hf hd] at hok
      simp only [Outcome.ok.injEq] at hok
      subst hok
      refine ⟨fun _ h => h, ?_⟩
      rintro d ⟨b, _, ⟨h1, _⟩ | ⟨h1, _⟩⟩
      · rw [hf] at h1
        exact absurd h1 (by simp)
      · rw [hd] at h1
        exact absurd h1 (by simp)
    · rw [markObject_didx _ _ _ _ _ hd] at hok
      obtain ⟨b, rfl, hlen, hloop⟩ := markDynamic_ok _ _ _ _ _ _ hok
      refine ⟨fun h hh => didxLoop_mono _ _ _ _ _ _ _ hloop hh, ?_⟩
      rintro d ⟨b', hb', ⟨h1, _⟩ | ⟨_, i, hi, rfl⟩⟩
      · rw [hf] at h1
        exact absurd h1 (by simp)
      · simp only [Fetch.data.injEq] at hb'
        subst hb'
        have hsize : b.length < 9223372036854775808 := hfit
        have h0 : (0 : Int) = ((40 * 0 : Nat) : Int) := by simp
        rw [h0] at hloop
        have := didxLoop_covers (b.drop 4096) k fuel 0 known known1
          (by rw [List.length_drop]; omega) hloop i (by omega)
          (by rw [List.length_drop]; omega)
        rw [slice_drop] at this
        have e1 : 4096 + (40 * i + 8) = 4096 + 40 * i + 8 := by omega
        have e2 : 4096 + (40 * i + 40) = 4096 + 40 * i + 40 := by omega
        rw [e1, e2] at this
        exact this
  · rw [markObject_fidx _ _ _ _ _ hf] at hok
    obtain ⟨b, rfl, hlen, _, rfl⟩ := markFixed_ok _ _ _ _ _ hok
    constructor
    · intro h hh
      rw [(mapGet_addReferrers known _ k h).2.1, hh]
      rfl
    · rintro d ⟨b', hb', ⟨_, i, hi, rfl⟩ | ⟨h1, _⟩⟩
      · simp only [Fetch.data.injEq] at hb'
        subst hb'
        rw [(mapGet_addReferrers known _ k _).2.1]
        have hmem : EncodeToString (slice b (4096 + 32 * i) (4096 + 32 * i + 32)) ∈
            (fixedDigests b).map EncodeToString :=
          List.mem_map_of_mem _ ((mem_fixedDigests b _).2 ⟨i, by omega, rfl⟩)
        simp [hmem]
      · rw [fidx_not_didx k hf] at h1
        exact absurd h1 (by simp)

theorem markObject_exact (fuel : Nat) (o : Object) (known known1 : StrMap (List String))
    (hfuel : fuel ≤ 144115188075855872)
    (hok : markObject fuel o known = Outcome.ok known1) (h : String)
    (hh : (mapGet known1 h).isSome = true) :
    (mapGet known h).isSome = true ∨ ∃ d, holdsDigest o d ∧ h = EncodeToString d := by
  obtain ⟨k, m, c⟩ := o
  cases hf : HasSuffix k ".fidx"
  · cases hd : HasSuffix k ".didx"
    · rw [markObject_other _ _ _ hf hd] at hok
      simp only [Outcome.ok.injEq] at hok
      subst hok
      exact Or.inl hh
    · rw [markObject_didx _ _ _ _ _ hd] at hok
      obtain ⟨b, rfl, hlen, hloop⟩ := markDynamic_ok _ _ _ _ _ _ hok
      have h0 : (0 : Int) = ((40 * 0 : Nat) : Int) := by simp
      rw [h0] at hloop
      obtain ⟨n, hn1, hn2, hn3⟩ := didxLoop_ok_aligned _ _ _ _ _ _ (by omega) hloop
      rw [List.length_drop] at hn3
      rw [didxLoop_aligned (b.drop 4096) k n (n - 1) fuel 0 known
        (by rw [List.length_drop]; omega) (by omega) (by omega) (by omega)] at hloop
      simp only [Outcome.ok.injEq] at hloop
      subst hloop
      rw [(mapGet_addReferrers known _ k h).2.1] at hh
      simp only [Bool.or_eq_true, decide_eq_true_eq, List.mem_map, List.mem_range'_1] at hh
      rcases hh with hh | ⟨t, ht, rfl⟩
      · exact Or.inl hh
      · refine Or.inr ⟨_, ⟨b, rfl, Or.inr ⟨hd, t, by omega, rfl⟩⟩, ?_⟩
        rw [slice_drop]
        congr 2
  · rw [markObject_fidx _ _ _ _ _ hf] at hok
    obtain ⟨b, rfl, hlen, hal, rfl⟩ := markFixed_ok _ _ _ _ _ hok
    rw [(mapGet_addReferrers known _ k h).2.1] at hh
    simp only [Bool.or_eq_true, decide_eq_true_eq, List.mem_map] at hh
    rcases hh with hh | ⟨d, hd, rfl⟩
    · exact Or.inl hh
    · obtain ⟨i, hi, rfl⟩ := (mem_fixedDigests b d).1 hd
      refine Or.inr ⟨_, ⟨b, rfl, Or.inl ⟨hf, i, ?_, rfl⟩⟩, rfl⟩
      have := Nat.div_mul_le_self (b.length - 4096) 32
      have h2 : (i + 1) * 32 ≤ (b.length - 4096) / 32 * 32 := Nat.mul_le_mul_right 32 hi
      omega

theorem markUsedChunks_covers (fuel : Nat) (listing : List Object)
    (known known1 : StrMap (List String))
    (hfit : ∀ x ∈ listing, x.size < 9223372036854775808)
    (hok : markUsedChunks fuel listing known = Outcome.ok known1) :
    (∀ h, (mapGet known h).isSome = true → (mapGet known1 h).isSome = true) ∧
      ∀ o ∈ listing, ∀ d, holdsDigest o d → (mapGet known1 (EncodeToString d)).isSome = true := by
  induction listing generalizing known with
  | nil =>
    simp only [markUsedChunks, Outcome.ok.injEq] at hok
    subst hok
    exact ⟨fun _ h => h, by simp⟩
  | cons a rest ih =>
    rw [markUsedChunks] at hok
    cases hm : markObject fuel a known with
    | fatal e => simp [hm, Outcome.andThen] at hok
    | timeout => simp [hm, Outcome.andThen] at hok
    | ok known2 =>
      simp only [hm, Outcome.andThen] at hok
      obtain ⟨hmono1, hcov1⟩ := markObject_covers fuel a known known2
        (hfit a (List.mem_cons_self _ _)) hm
      obtain ⟨hmono2, hcov2⟩ := ih known2 (fun x hx => hfit x (List.mem_cons_of_mem _ hx)) hok
      refine ⟨fun h hh => hmono2 h (hmono1 h hh), ?_⟩
      intro o ho d hd
      rcases List.mem_cons.1 ho with ho | ho
      · subst ho
        exact hmono2 _ (hcov1 d hd)
      · exact hcov2 o ho d hd

theorem markUsedChunks_exact (fuel : Nat) (listing : List Object)
    (known known1 : StrMap (List String)) (hfuel : fuel ≤ 144115188075855872)
    (hok : markUsedChunks fuel listing known = Outcome.ok known1) (h : String)
    (hh : (mapGet known1 h).isSome = true) :
    (mapGet known h).isSome = true ∨
      ∃ o ∈ listing, ∃ d, holdsDigest o d ∧ h = EncodeToString d := by
  induction listing generalizing known with
  | nil =>
    simp only [markUsedChunks, Outcome.ok.injEq] at hok
    subst hok
    exact Or.inl hh
  | cons a rest ih =>
    rw [markUsedChunks] at hok
    cases hm : markObject fuel a known with
    | fatal e => simp [hm, Outcome.andThen] at hok
    | timeout => simp [hm, Outcome.andThen] at hok
    | ok known2 =>
      simp only [hm, Outcome.andThen] at hok
      rcases ih known2 hok with h2 | ⟨o, ho, d, hd, he⟩
      · rcases markObject_exact fuel a known known2 hfuel hm h h2 with h3 | ⟨d, hd, he⟩
        · exact Or.inl h3
        · exact Or.inr ⟨a, List.mem_cons_self _ _, d, hd, he⟩
      · exact Or.inr ⟨o, List.mem_cons_of_mem _ ho, d, hd, he⟩

theorem sweepChunks_removed (known : StrMap (List String)) (listing : List Object)
    (acc : List String × StrMap Bool) :
    (sweepChunks known listing acc).1 =
      acc.1 ++ (listing.filter
        (fun o => (mapGet known (chunkhash o.Key)).isNone)).map (fun o => o.Key) := by
  induction listing generalizing acc with
  | nil => simp [sweepChunks]
  | cons a rest ih =>
    obtain ⟨removed, existing⟩ := acc
    rw [sweepChunks]
    split
    · rename_i hk
      rw [ih]
      simp [hk]
    · rename_i v hk
      rw [ih]
      simp [hk]

theorem sweepChunks_existing_none (known : StrMap (List String)) (listing : List Object)
    (acc : List String × StrMap Bool) (h : String) (hacc : mapGet acc.2 h = none)
    (hk : mapGet known h = none) :
    mapGet (sweepChunks known listing acc).2 h = none := by
  induction listing generalizing acc with
  | nil => simpa [sweepChunks] using hacc
  | cons a rest ih =>
    obtain ⟨removed, existing⟩ := acc
    rw [sweepChunks]
    split
    · exact ih _ hacc
    · rename_i v hv
      apply ih
      simp only
      rw [mapGet_mapSet]
      split
      · rename_i he
        rw [he, hk] at hv
        exact absurd hv (by simp)
      · exact hacc

theorem collectHashes_ne_tagging (l : List Object) (kh : StrMap Bool) :
    collectHashes l kh ≠ Outcome.fatal Fatal.corruptionTagging := by
  induction l generalizing kh with
  | nil => simp [collectHashes]
  | cons a rest ih =>
    rw [collectHashes]
    split
    · exact ih kh
    · split
      · simp
      · exact ih _

theorem main_removedChunks_cases (env : Env) :
    ((main env).removedChunks = [] ∧
      ((main env).exit = Exit.hang ∨ ∃ e, (main env).exit = Exit.fatal e ∧
        (e = Fatal.lockNotAcquired ∨ e = Fatal.bucketInaccessible ∨ e = Fatal.bucketAbsent ∨
          e = Fatal.snapshotListing ∨ e = Fatal.noSnapshots ∨
          collectHashes (ListObjects env.bucket "backups/") [] = Outcome.fatal e ∨
          markUsedChunks env.fuel (ListObjects env.bucket "backups/") [] = Outcome.fatal e))) ∨
      ∃ known, markUsedChunks env.fuel (ListObjects env.bucket "backups/") [] = Outcome.ok known ∧
        (main env).removedChunks =
          (sweepChunks known (ListObjects env.bucket "chunks/") ([], [])).1 := by
  unfold main
  simp only [Run.stop]
  split
  · exact Or.inl ⟨rfl, Or.inr ⟨_, rfl, by simp⟩⟩
  · split
    · exact Or.inl ⟨rfl, Or.inr ⟨_, rfl, by simp⟩⟩
    · exact Or.inl ⟨rfl, Or.inr ⟨_, rfl, by simp⟩⟩
    · split
      · exact Or.inl ⟨rfl, Or.inr ⟨_, rfl, by simp⟩⟩
      · split
        · exact Or.inl ⟨rfl, Or.inr ⟨_, rfl, by simp⟩⟩
        · split
          · rename_i e he
            exact Or.inl ⟨rfl, Or.inr ⟨e, rfl, by simp [he]⟩⟩
          · exact Or.inl ⟨rfl, Or.inl rfl⟩
          · split
            · rename_i e he
              exact Or.inl ⟨rfl, Or.inr ⟨e, rfl, by simp [he]⟩⟩
            · exact Or.inl ⟨rfl, Or.inl rfl⟩
            · rename_i known hk
              refine Or.inr ⟨known, hk, ?_⟩
              split <;> rfl

theorem main_removedChunks_of_marked (env : Env) (known : StrMap (List String))
    (hmark : markUsedChunks env.fuel (ListObjects env.bucket "backups/") [] = Outcome.ok known)
    (hexit : (main env).exit = Exit.success ∨
      (main env).exit = Exit.fatal Fatal.corruptionTagging) :
    (main env).removedChunks =
      (sweepChunks known (ListObjects env.bucket "chunks/") ([], [])).1 := by
  rcases main_removedChunks_cases env with ⟨_, h | ⟨e, he, hcase⟩⟩ | ⟨known1, hk, hr⟩
  · rw [h] at hexit
    simp at hexit
  · rw [he] at hexit
    simp only [reduceCtorEq, Exit.fatal.injEq, false_or] at hexit
    subst hexit
    rcases hcase with h | h | h | h | h | h | h
    · exact absurd h (by decide)
    · exact absurd h (by decide)
    · exact absurd h (by decide)
    · exact absurd h (by decide)
    · exact absurd h (by decide)
    · exact absurd h (collectHashes_ne_tagging _ _)
    · rw [hmark] at h
      exact absurd h (by simp)
  · rw [hmark] at hk
    simp only [Outcome.ok.injEq] at hk
    rw [hr, hk]

/-- Phase 3 on the bucket of the examples. -/
theorem exampleBucket_marked :
    markUsedChunks 8 (ListObjects exampleBucket "backups/") [] = Outcome.ok exampleKnown := by
  decide!

/-- The run on the bucket of the examples reaches its successful finish. -/
theorem exampleBucket_run :
    (main (exampleEnv [Snapshot.mk "vm/100" 1699999000 false] exampleBucket)).exit =
      Exit.success := by
  decide!

theorem holdsDigest_iff (idx : Object) (d : List Nat) :
    holdsDigest idx d ↔ d ∈ heldDigests idx := by
  obtain ⟨k, m, c⟩ := idx
  unfold holdsDigest heldDigests
  cases c with
  | accessError => simp
  | readError => simp
  | data b =>
    simp only [Fetch.data.injEq, exists_eq_left']
    cases hf : HasSuffix k ".fidx"
    · cases hd : HasSuffix k ".didx"
      · simp
      · simp only [Bool.false_eq_true, false_and, false_or, true_and, if_false, if_true]
        unfold dynamicDigests
        simp only [List.mem_map, List.mem_range]
        constructor
        · rintro ⟨i, hi, rfl⟩
          exact ⟨i, by omega, rfl⟩
        · rintro ⟨i, hi, rfl⟩
          exact ⟨i, by omega, rfl⟩
    · simp only [fidx_not_didx k hf, Bool.false_eq_true, false_and, or_false, true_and, if_true]
      rw [mem_fixedDigests]
      constructor
      · rintro ⟨i, hi, rfl⟩
        exact ⟨i, by omega, rfl⟩
      · rintro ⟨i, hi, rfl⟩
        exact ⟨i, by omega, rfl⟩

/-- C1 (safety of marking). Take a run whose objects have bodies of fewer than `2^63` bytes
(the lengths a Go slice can have) and on which Phase 3 runs to completion with the map
`knownChunks`. If a digest `d` occurs in the payload of an index listed under `backups/` (a
32-byte block of a `.fidx`, or bytes 8 to 39 of a 40-byte record of a `.didx`), then no object
listed under `chunks/` whose recovered digest is the lowercase hex of `d` has its key in the
delete stream computed by Phase 4, nor among the chunk removals of the run. -/
theorem marked_chunks_not_deleted (env : Env) (knownChunks : StrMap (List String))
    (idx o : Object) (d : List Nat)
    (hfit : ∀ x ∈ env.bucket, x.size < 9223372036854775808)
    (hmark : markUsedChunks env.fuel (ListObjects env.bucket "backups/") [] =
      Outcome.ok knownChunks)
    (hidx : idx ∈ ListObjects env.bucket "backups/") (hd : holdsDigest idx d)
    (_ho : o ∈ ListObjects env.bucket "chunks/")
    (hrec : chunkhash o.Key = EncodeToString d) :
    o.Key ∉ (sweepChunks knownChunks (ListObjects env.bucket "chunks/") ([], [])).1 ∧
      o.Key ∉ (main env).removedChunks := by
  have hcov := (markUsedChunks_covers env.fuel _ [] knownChunks
    (fun x hx => hfit x (List.mem_of_mem_filter hx)) hmark).2 idx hidx d hd
  have hsweep : o.Key ∉
      (sweepChunks knownChunks (ListObjects env.bucket "chunks/") ([], [])).1 := by
    rw [sweepChunks_removed]
    simp only [List.nil_append, List.mem_map, List.mem_filter, not_exists, not_and]
    rintro o1 ⟨_, hnone⟩ hkey
    rw [hkey, hrec] at hnone
    rw [Option.isNone_iff_eq_none] at hnone
    rw [hnone] at hcov
    simp at hcov
  refine ⟨hsweep, ?_⟩
  rcases main_removedChunks_cases env with ⟨h, _⟩ | ⟨known1, hk, hr⟩
  · rw [h]
    simp
  · rw [hmark] at hk
    simp only [Outcome.ok.injEq] at hk
    rw [hr, ← hk]
    exact hsweep

theorem marked_chunks_not_deleted_witness :
    (exampleChunk 'a').Key ∉
        (sweepChunks exampleKnown (ListObjects exampleBucket "chunks/") ([], [])).1 ∧
      (exampleChunk 'a').Key ∉
        (main (exampleEnv [Snapshot.mk "vm/100" 1699999000 false] exampleBucket)).removedChunks :=
  marked_chunks_not_deleted (exampleEnv [Snapshot.mk "vm/100" 1699999000 false] exampleBucket)
    exampleKnown exampleFixed (exampleChunk 'a') (List.replicate 32 170)
    (by decide!) exampleBucket_marked
    (List.mem_filter.2 ⟨List.mem_cons_self _ _, by decide!⟩)
    ⟨exampleIndex (List.replicate 32 170 ++ List.replicate 32 187), rfl,
      Or.inl ⟨by decide!, 0, by decide!, by decide!⟩⟩
    (by decide!) (by decide!)

/-- C2 (completeness of sweep). Take a run on which Phase 3 runs to completion with the map
`knownChunks`, no record loop taking more than `2^57` passes. Every object listed under
`chunks/` whose recovered digest is not the lowercase hex of a digest held in the payload of
any `.fidx` or `.didx` listed under `backups/` has its key in the delete stream computed by
Phase 4 and its recovered digest is not recorded in `existingChunks`; when the run goes on
through Phase 4 (it ends successfully or by a failed corruption marker), that delete stream
is the one of the run. -/
theorem unreferenced_chunks_swept (env : Env) (knownChunks : StrMap (List String))
    (o : Object) (hfuel : env.fuel ≤ 144115188075855872)
    (hmark : markUsedChunks env.fuel (ListObjects env.bucket "backups/") [] =
      Outcome.ok knownChunks)
    (ho : o ∈ ListObjects env.bucket "chunks/")
    (hun : ∀ idx ∈ ListObjects env.bucket "backups/", ∀ d, holdsDigest idx d →
      chunkhash o.Key ≠ EncodeToString d) :
    o.Key ∈ (sweepChunks knownChunks (ListObjects env.bucket "chunks/") ([], [])).1 ∧
      mapGet (sweepChunks knownChunks (ListObjects env.bucket "chunks/") ([], [])).2
        (chunkhash o.Key) = none ∧
      (((main env).exit = Exit.success ∨
          (main env).exit = Exit.fatal Fatal.corruptionTagging) →
        o.Key ∈ (main env).removedChunks) := by
  have hnone : mapGet knownChunks (chunkhash o.Key) = none := by
    cases hg : mapGet knownChunks (chunkhash o.Key) with
    | none => rfl
    | some v =>
      rcases markUsedChunks_exact env.fuel _ [] knownChunks hfuel hmark (chunkhash o.Key)
        (by rw [hg]; rfl) with h | ⟨idx, hidx, d, hd, he⟩
      · simp [mapGet] at h
      · exact absurd he (hun idx hidx d hd)
  have hsweep : o.Key ∈
      (sweepChunks knownChunks (ListObjects env.bucket "chunks/") ([], [])).1 := by
    rw [sweepChunks_removed]
    simp only [List.nil_append, List.mem_map, List.mem_filter]
    exact ⟨o, ⟨ho, by rw [hnone]; rfl⟩, rfl⟩
  refine ⟨hsweep, sweepChunks_existing_none _ _ _ _ rfl hnone, ?_⟩
  intro hexit
  rw [main_removedChunks_of_marked env knownChunks hmark hexit]
  exact hsweep

theorem unreferenced_chunks_swept_witness :
    (exampleChunk 'e').Key ∈
        (sweepChunks exampleKnown (ListObjects exampleBucket "chunks/") ([], [])).1 ∧
      mapGet (sweepChunks exampleKnown (ListObjects exampleBucket "chunks/") ([], [])).2
        (chunkhash (exampleChunk 'e').Key) = none ∧
      (exampleChunk 'e').Key ∈
        (main (exampleEnv [Snapshot.mk "vm/100" 1699999000 false] exampleBucket)).removedChunks :=
  have h := unreferenced_chunks_swept
    (exampleEnv [Snapshot.mk "vm/100" 1699999000 false] exampleBucket)
    exampleKnown (exampleChunk 'e') (by decide!) exampleBucket_marked (by decide!)
    (fun idx hidx d hd =>
      (by decide! : ∀ i ∈ ListObjects exampleBucket "backups/", ∀ x ∈ heldDigests i,
        chunkhash (exampleChunk 'e').Key ≠ EncodeToString x) idx hidx d
        ((holdsDigest_iff idx d).1 hd))
  ⟨h.1, h.2.1, h.2.2 (Or.inl exampleBucket_run)⟩

/-! ## Phase 1: retention -/

theorem mem_retention_iff (r : Nat) (clock : Nat → Int) (snaps : List Snapshot) (i : Nat)
    (s : Snapshot) :
    s ∈ retention r clock i snaps ↔
      ∃ j, snaps.get? j = some s ∧ expired r s (clock (i + j)) = true ∧ s.Protected = false := by
  induction snaps generalizing i with
  | nil => simp [retention]
  | cons a rest ih =>
    unfold retention
    constructor
    · intro h
      split at h
      · rename_i hexp
        split at h
        · obtain ⟨j, hj, he, hp⟩ := (ih (i + 1)).1 h
          exact ⟨j + 1, by simpa using hj, by rw [← he]; congr 2; omega, hp⟩
        · rename_i hprot
          rcases List.mem_cons.1 h with h | h
          · subst h
            exact ⟨0, by simp, by simpa using hexp, by simpa using hprot⟩
          · obtain ⟨j, hj, he, hp⟩ := (ih (i + 1)).1 h
            exact ⟨j + 1, by simpa using hj, by rw [← he]; congr 2; omega, hp⟩
      · obtain ⟨j, hj, he, hp⟩ := (ih (i + 1)).1 h
        exact ⟨j + 1, by simpa using hj, by rw [← he]; congr 2; omega, hp⟩
    · rintro ⟨j, hj, he, hp⟩
      have hrest : ∀ j', j = j' + 1 → s ∈ retention r clock (i + 1) rest := by
        intro j' hj'
        subst hj'
        exact (ih (i + 1)).2 ⟨j', by simpa using hj, by rw [← he]; congr 2; omega, hp⟩
      cases j with
      | zero =>
        simp at hj
        subst hj
        simp at he
        simp [he, hp]
      | succ j' =>
        have := hrest j' rfl
        split
        · split
          · exact this
          · exact List.mem_cons_of_mem _ this
        · exact this

theorem main_deletedSnapshots_cases (env : Env) :
    (main env).deletedSnapshots = [] ∨
      ∃ snapshots, env.snapshots = some snapshots ∧
        (main env).deletedSnapshots = retention env.retentionDays env.clock 0 snapshots := by
  unfold main
  simp only [Run.stop]
  split
  · exact Or.inl rfl
  · split
    · exact Or.inl rfl
    · exact Or.inl rfl
    · split
      · exact Or.inl rfl
      · rename_i snapshots hs
        split
        · exact Or.inl rfl
        · refine Or.inr ⟨snapshots, hs, ?_⟩
          split
          · rfl
          · rfl
          · split
            · rfl
            · rfl
            · split <;> rfl

/-- C7 (protected invariance). Whatever the backup times, the retention value and the clock
readings, Phase 1 hands no snapshot with `Protected = true` to `s.Delete`; every snapshot it
deletes stands at some position `j` of the listing, is unprotected, and passed the expiry
test against the clock reading taken for position `j`; and no run of `main` deletes a
protected snapshot. -/
theorem retention_spares_protected (retentionDays : Nat) (clock : Nat → Int)
    (snapshots : List Snapshot) :
    (∀ s, s.Protected = true → s ∉ retention retentionDays clock 0 snapshots) ∧
    (∀ s, s ∈ retention retentionDays clock 0 snapshots →
      s.Protected = false ∧
        ∃ j, snapshots.get? j = some s ∧ expired retentionDays s (clock j) = true) ∧
    (∀ env : Env, ∀ s, s.Protected = true → s ∉ (main env).deletedSnapshots) := by
  refine ⟨?_, ?_, ?_⟩
  · intro s hs hmem
    obtain ⟨j, _, _, hp⟩ := (mem_retention_iff _ _ _ _ _).1 hmem
    rw [hs] at hp
    exact absurd hp (by simp)
  · intro s hmem
    obtain ⟨j, hj, he, hp⟩ := (mem_retention_iff _ _ _ _ _).1 hmem
    exact ⟨hp, j, hj, by simpa using he⟩
  · intro env s hs hmem
    rcases main_deletedSnapshots_cases env with h | ⟨snaps, _, h⟩
    · rw [h] at hmem
      simp at hmem
    · rw [h] at hmem
      obtain ⟨j, _, _, hp⟩ := (mem_retention_iff _ _ _ _ _).1 hmem
      rw [hs] at hp
      exact absurd hp (by simp)

theorem expired_mono (r : Nat) (A B : Snapshot) (nowA nowB : Int)
    (hle : A.BackupTime ≤ B.BackupTime)
    (hclock : uint64 nowB ≤ uint64 nowA)
    (hfit : B.BackupTime + (r % 18446744073709551616) * 86400 % 18446744073709551616
      < 18446744073709551616)
    (hB : expired r B nowB = true) : expired r A nowA = true := by
  unfold expired at *
  simp only [decide_eq_true_eq] at *
  omega

/-- C8, amended (retention monotonicity). Let A stand at position `i` and B at position `j`
of the snapshot listing, both unprotected, with `A.BackupTime ≤ B.BackupTime`. If the clock
reading taken for A is, as a `uint64`, not earlier than the one taken for B, and the sum
`B.BackupTime + uint64(retentionDays)*86400` does not exceed 64 bits, then B passing the
expiry test (hence being deleted) implies that A passes it and is deleted. -/
theorem retention_monotone_same_clock (retentionDays : Nat) (clock : Nat → Int)
    (snapshots : List Snapshot) (i j : Nat) (A B : Snapshot)
    (hA : snapshots.get? i = some A) (_hB : snapshots.get? j = some B)
    (hAp : A.Protected = false) (_hBp : B.Protected = false)
    (hle : A.BackupTime ≤ B.BackupTime)
    (hclock : uint64 (clock j) ≤ uint64 (clock i))
    (hfit : B.BackupTime + (retentionDays % 18446744073709551616) * 86400
      % 18446744073709551616 < 18446744073709551616)
    (hdel : expired retentionDays B (clock j) = true) :
    expired retentionDays A (clock i) = true ∧
      A ∈ retention retentionDays clock 0 snapshots := by
  have h := expired_mono retentionDays A B (clock i) (clock j) hle hclock hfit hdel
  exact ⟨h, (mem_retention_iff _ _ _ _ _).2 ⟨i, hA, by simpa using h, hAp⟩⟩

theorem retention_monotone_same_clock_witness :
    expired 60 (Snapshot.mk "A" 1000 false) 1700000000 = true ∧
      Snapshot.mk "A" 1000 false ∈
        retention 60 (fun _ => 1700000000) 0
          [Snapshot.mk "B" 2000 false, Snapshot.mk "A" 1000 false] :=
  retention_monotone_same_clock 60 (fun _ => 1700000000)
    [Snapshot.mk "B" 2000 false, Snapshot.mk "A" 1000 false] 1 0
    (Snapshot.mk "A" 1000 false) (Snapshot.mk "B" 2000 false)
    (by decide) (by decide) (by decide) (by decide) (by decide) (by decide) (by decide)
    (by decide)

/-- C8 as stated fails on the code. First run: retention 60 days, A and B unprotected with
backup times 1000 ≤ 1001, a clock that advances by two seconds between the two tests; B is
deleted, A is kept. Second run: a constant clock and `--retention 213503982334601`, for which
`B.BackupTime + retentionDays*86400` wraps around in `uint64` while the sum for A does not;
again B is deleted and A is kept. -/
theorem retention_not_monotone :
    ((Snapshot.mk "A" 1000 false).BackupTime ≤ (Snapshot.mk "B" 1001 false).BackupTime ∧
      (∀ n : Nat, (5185000 + 2 * (n : Int)) ≤ 5185000 + 2 * ((n + 1 : Nat) : Int)) ∧
      Snapshot.mk "B" 1001 false ∈
        retention 60 (fun n => 5185000 + 2 * (n : Int)) 0
          [Snapshot.mk "A" 1000 false, Snapshot.mk "B" 1001 false] ∧
      Snapshot.mk "A" 1000 false ∉
        retention 60 (fun n => 5185000 + 2 * (n : Int)) 0
          [Snapshot.mk "A" 1000 false, Snapshot.mk "B" 1001 false]) ∧
    ((Snapshot.mk "A" 0 false).BackupTime ≤ (Snapshot.mk "B" 30000 false).BackupTime ∧
      Snapshot.mk "B" 30000 false ∈
        retention 213503982334601 (fun _ => 1700000000) 0
          [Snapshot.mk "A" 0 false, Snapshot.mk "B" 30000 false] ∧
      Snapshot.mk "A" 0 false ∉
        retention 213503982334601 (fun _ => 1700000000) 0
          [Snapshot.mk "A" 0 false, Snapshot.mk "B" 30000 false]) := by
  refine ⟨⟨by decide, ?_, by decide, by decide⟩, by decide, by decide, by decide⟩
  intro n
  push_cast
  omega

/-! ## Phase 5: integrity check -/

theorem splitChars_ne_nil (sep : Char) (l : List Char) : splitChars sep l ≠ [] := by
  cases l with
  | nil => simp [splitChars]
  | cons c cs =>
    unfold splitChars
    split
    · simp
    · split <;> simp

theorem Join_cons_cons (a b : String) (rest : List String) (sep : String) :
    Join (a :: b :: rest) sep = a ++ sep ++ Join (b :: rest) sep := rfl

theorem Join_splitChars (sep : Char) (l : List Char) :
    Join ((splitChars sep l).map String.mk) (String.mk [sep]) = String.mk l := by
  induction l with
  | nil => rfl
  | cons c cs ih =>
    unfold splitChars
    split
    · rename_i hc
      subst hc
      obtain ⟨seg, segs, hs⟩ := List.exists_cons_of_ne_nil (splitChars_ne_nil c cs)
      rw [hs] at ih ⊢
      simp only [List.map_cons] at ih ⊢
      rw [Join_cons_cons, ih]
      apply String.ext
      simp
    · obtain ⟨seg, segs, hs⟩ := List.exists_cons_of_ne_nil (splitChars_ne_nil sep cs)
      rw [hs] at ih ⊢
      simp only [List.map_cons] at ih ⊢
      cases segs with
      | nil =>
        simp only [List.map_nil, Join] at ih ⊢
        apply String.ext
        have := congrArg String.data ih
        simp at this
        simp [this]
      | cons s2 rest =>
        simp only [List.map_cons] at ih ⊢
        rw [Join_cons_cons] at ih ⊢
        apply String.ext
        have := congrArg String.data ih
        simp at this
        simp [this]

theorem Join_dropLast (segs : List String) (sep : String) (h : 2 ≤ segs.length) :
    Join segs.dropLast sep ++ sep ++ segs.getLastD "" = Join segs sep := by
  induction segs with
  | nil => simp at h
  | cons a rest ih =>
    cases rest with
    | nil => simp at h
    | cons b rest2 =>
      cases rest2 with
      | nil => simp [Join, List.dropLast]
      | cons c rest3 =>
        have ih2 := ih (by simp)
        rw [Join_cons_cons]
        have hd : (a :: b :: c :: rest3).dropLast = a :: (b :: c :: rest3).dropLast := by
          simp [List.dropLast]
        have hd2 : (b :: c :: rest3).dropLast = b :: (c :: rest3).dropLast := by
          simp [List.dropLast]
        rw [hd, hd2, Join_cons_cons, ← hd2]
        have hl : (a :: b :: c :: rest3).getLastD "" = (b :: c :: rest3).getLastD "" := by
          simp [List.getLastD]
        rw [hl, ← ih2]
        simp [String.append_assoc]

theorem two_le_length_splitChars (sep : Char) (l : List Char) (h : sep ∈ l) :
    2 ≤ (splitChars sep l).length := by
  induction l with
  | nil => simp at h
  | cons c cs ih =>
    unfold splitChars
    split
    · have := List.length_pos.2 (splitChars_ne_nil sep cs)
      simp
      omega
    · rename_i hc
      have hmem : sep ∈ cs := by
        rcases List.mem_cons.1 h with h | h
        · exact absurd h.symm hc
        · exact h
      have := ih hmem
      split
      · rename_i hnil
        rw [hnil] at this
        simp at this
      · rename_i seg segs hs
        rw [hs] at this
        simpa using this

theorem basepath_append_lastSegment (k : String) (h : '/' ∈ k.data) :
    basepath k ++ "/" ++ lastSegment k = k := by
  unfold basepath lastSegment Split
  have h2 : 2 ≤ ((splitChars '/' k.data).map String.mk).length := by
    simpa using two_le_length_splitChars '/' k.data h
  rw [Join_dropLast _ "/" h2]
  exact Join_splitChars '/' k.data

theorem tagCorrupted_spec (putFails : Nat → Bool) (v : List String) (puts : List Put) :
    (∃ extra, (tagCorrupted putFails v puts).1 = puts ++ extra ∧
      (∀ p ∈ extra, ∃ k ∈ v, p = corruptedMarker k) ∧
      ((tagCorrupted putFails v puts).2 = true →
        (∀ k ∈ v, corruptedMarker k ∈ extra) ∧
        ∀ n, puts.length ≤ n → n < (puts ++ extra).length → putFails n = false) ∧
      ((tagCorrupted putFails v puts).2 = false →
        ∃ n, puts.length ≤ n ∧ n < (puts ++ extra).length ∧ putFails n = true)) := by
  induction v generalizing puts with
  | nil =>
    refine ⟨[], by simp [tagCorrupted], by simp, ?_, by simp [tagCorrupted]⟩
    intro _
    refine ⟨by simp, ?_⟩
    intro n h1 h2
    simp at h2
    omega
  | cons oname rest ih =>
    unfold tagCorrupted
    dsimp only
    split
    · rename_i hf
      refine ⟨[corruptedMarker oname], rfl, ?_, ?_, ?_⟩
      · intro p hp
        simp at hp
        exact ⟨oname, by simp, hp⟩
      · intro h
        simp at h
      · intro _
        exact ⟨puts.length, le_refl _, by simp, hf⟩
    · rename_i hf
      obtain ⟨extra, he, hall, hok, hbad⟩ :=
        ih (puts ++ [Put.mk (basepath oname ++ "/corrupted") "CORRUPTED" 9])
      refine ⟨corruptedMarker oname :: extra, ?_, ?_, ?_, ?_⟩
      · rw [he]
        simp [corruptedMarker]
      · intro p hp
        rcases List.mem_cons.1 hp with hp | hp
        · exact ⟨oname, by simp, hp⟩
        · obtain ⟨k, hk, hpk⟩ := hall p hp
          exact ⟨k, List.mem_cons_of_mem _ hk, hpk⟩
      · intro h
        obtain ⟨h1, h2⟩ := hok h
        constructor
        · intro k hk
          rcases List.mem_cons.1 hk with hk | hk
          · subst hk
            simp
          · exact List.mem_cons_of_mem _ (h1 k hk)
        · intro n hn1 hn2
          by_cases hn : n = puts.length
          · subst hn
            simpa using hf
          · apply h2 n
            · simp
              omega
            · simp at hn2 ⊢
              omega
      · intro h
        obtain ⟨n, hn1, hn2, hn3⟩ := hbad h
        refine ⟨n, ?_, ?_, hn3⟩
        · simp at hn1
          omega
        · simp at hn2 ⊢
          omega

theorem mem_of_mapGet {β : Type} (m : StrMap β) (k : String) (v : β)
    (h : mapGet m k = some v) : (k, v) ∈ m := by
  induction m with
  | nil => simp [mapGet] at h
  | cons a rest ih =>
    obtain ⟨k', v'⟩ := a
    unfold mapGet at h
    split at h
    · rename_i hk
      simp at h
      subst hk h
      simp
    · exact List.mem_cons_of_mem _ (ih h)

theorem integrityCheck_spec (putFails : Nat → Bool) (existingChunks : StrMap Bool)
    (entries : List (String × List String)) (puts : List Put) :
    (∃ extra, (integrityCheck putFails existingChunks entries puts).1 = puts ++ extra ∧
      (∀ p ∈ extra, ∃ d v, (d, v) ∈ entries ∧ mapGet existingChunks d = none ∧
        ∃ k ∈ v, p = corruptedMarker k) ∧
      ((integrityCheck putFails existingChunks entries puts).2 = true →
        (∀ d v, (d, v) ∈ entries → mapGet existingChunks d = none →
          ∀ k ∈ v, corruptedMarker k ∈ extra) ∧
        ∀ n, puts.length ≤ n → n < (puts ++ extra).length → putFails n = false) ∧
      ((integrityCheck putFails existingChunks entries puts).2 = false →
        ∃ n, puts.length ≤ n ∧ n < (puts ++ extra).length ∧ putFails n = true)) := by
  induction entries generalizing puts with
  | nil =>
    refine ⟨[], by simp [integrityCheck], by simp, ?_, by simp [integrityCheck]⟩
    intro _
    refine ⟨by simp, ?_⟩
    intro n h1 h2
    simp at h2
    omega
  | cons e rest ih =>
    obtain ⟨d0, v0⟩ := e
    unfold integrityCheck
    split
    · rename_i b hb
      obtain ⟨extra, he, hall, hok, hbad⟩ := ih puts
      refine ⟨extra, he, ?_, ?_, hbad⟩
      · intro p hp
        obtain ⟨d, v, hdv, hex, hk⟩ := hall p hp
        exact ⟨d, v, List.mem_cons_of_mem _ hdv, hex, hk⟩
      · intro h
        obtain ⟨h1, h2⟩ := hok h
        refine ⟨?_, h2⟩
        intro d v hdv hex k hk
        rcases List.mem_cons.1 hdv with hdv | hdv
        · simp only [Prod.mk.injEq] at hdv
          rw [hdv.1, hb] at hex
          simp at hex
        · exact h1 d v hdv hex k hk
    · rename_i hnone
      obtain ⟨ex1, he1, hall1, hok1, hbad1⟩ := tagCorrupted_spec putFails v0 puts
      split
      · rename_i puts1 htag
        have h1 : (tagCorrupted putFails v0 puts).1 = puts1 := by rw [htag]
        have h2 : (tagCorrupted putFails v0 puts).2 = false := by rw [htag]
        rw [h1] at he1
        refine ⟨ex1, he1, ?_, ?_, ?_⟩
        · intro p hp
          obtain ⟨k, hk, hpk⟩ := hall1 p hp
          exact ⟨d0, v0, by simp, hnone, k, hk, hpk⟩
        · intro h
          simp at h
        · intro _
          exact hbad1 h2
      · rename_i puts1 htag
        have h1 : (tagCorrupted putFails v0 puts).1 = puts1 := by rw [htag]
        have h2 : (tagCorrupted putFails v0 puts).2 = true := by rw [htag]
        rw [h1] at he1
        obtain ⟨hk1, hn1⟩ := hok1 h2
        obtain ⟨ex2, he2, hall2, hok2, hbad2⟩ := ih puts1
        refine ⟨ex1 ++ ex2, ?_, ?_, ?_, ?_⟩
        · rw [he2, he1, List.append_assoc]
        · intro p hp
          rcases List.mem_append.1 hp with hp | hp
          · obtain ⟨k, hk, hpk⟩ := hall1 p hp
            exact ⟨d0, v0, by simp, hnone, k, hk, hpk⟩
          · obtain ⟨d, v, hdv, hex, hk⟩ := hall2 p hp
            exact ⟨d, v, List.mem_cons_of_mem _ hdv, hex, hk⟩
        · intro h
          obtain ⟨hk2, hn2⟩ := hok2 h
          constructor
          · intro d v hdv hex k hk
            rcases List.mem_cons.1 hdv with hdv | hdv
            · simp only [Prod.mk.injEq] at hdv
              obtain ⟨rfl, rfl⟩ := hdv
              exact List.mem_append_left _ (hk1 k hk)
            · exact List.mem_append_right _ (hk2 d v hdv hex k hk)
          · intro n hle hlt
            by_cases hn : n < (puts ++ ex1).length
            · exact hn1 n hle hn
            · apply hn2 n
              · rw [he1]
                omega
              · rw [he1]
                simp at hlt ⊢
                omega
        · intro h
          obtain ⟨n, hle, hlt, hf⟩ := hbad2 h
          refine ⟨n, ?_, ?_, hf⟩
          · rw [he1] at hle
            simp at hle
            omega
          · rw [he1] at hlt
            simp at hlt ⊢
            omega

/-- C9 (corruption marking). Let the `range` over `knownChunks` visit `entries`, a
permutation of the map. Every put issued by Phase 5 is the marker `base(k) + "/corrupted"`
with body `CORRUPTED` and declared length 9 of a referrer `k` of a digest that is a key of
`knownChunks` and not of `existingChunks` (none is issued for a surviving digest); when the
phase finishes, such a put has been issued for every missing digest `d` and every referrer
`k` in `knownChunks[d]`; the phase ends fatally exactly when one of the issued puts failed,
so missing chunks alone never make it fail; and for every key containing `/` the base path
followed by `/` and the last segment is the key. -/
theorem integrityCheck_marks_corrupted (putFails : Nat → Bool) (existingChunks : StrMap Bool)
    (knownChunks entries : StrMap (List String)) (hperm : entries.Perm knownChunks) :
    (∀ p ∈ (integrityCheck putFails existingChunks entries []).1,
      p.Body = "CORRUPTED" ∧ p.Size = 9 ∧ p.Size = ("CORRUPTED".length : Int) ∧
      ∃ d v, (d, v) ∈ knownChunks ∧ mapGet existingChunks d = none ∧
        ∃ k ∈ v, p = Put.mk (basepath k ++ "/corrupted") "CORRUPTED" 9) ∧
    ((integrityCheck putFails existingChunks entries []).2 = true →
      ∀ d v, mapGet knownChunks d = some v → mapGet existingChunks d = none →
        ∀ k ∈ v, Put.mk (basepath k ++ "/corrupted") "CORRUPTED" 9 ∈
          (integrityCheck putFails existingChunks entries []).1) ∧
    ((integrityCheck putFails existingChunks entries []).2 = false ↔
      ∃ n, n < (integrityCheck putFails existingChunks entries []).1.length ∧
        putFails n = true) ∧
    ((∀ n, putFails n = false) → (integrityCheck putFails existingChunks entries []).2 = true) ∧
    (∀ k : String, '/' ∈ k.data → basepath k ++ "/" ++ lastSegment k = k) := by
  obtain ⟨extra, he, hall, hok, hbad⟩ := integrityCheck_spec putFails existingChunks entries []
  simp only [List.nil_append] at he
  have hiff : (integrityCheck putFails existingChunks entries []).2 = false ↔
      ∃ n, n < (integrityCheck putFails existingChunks entries []).1.length ∧
        putFails n = true := by
    constructor
    · intro h
      obtain ⟨n, _, hlt, hf⟩ := hbad h
      exact ⟨n, by rw [he]; simpa using hlt, hf⟩
    · rintro ⟨n, hlt, hf⟩
      by_contra hne
      have ht : (integrityCheck putFails existingChunks entries []).2 = true := by
        simpa using hne
      have := (hok ht).2 n (by simp) (by rw [he] at hlt; simpa using hlt)
      rw [this] at hf
      simp at hf
  refine ⟨?_, ?_, hiff, ?_, basepath_append_lastSegment⟩
  · intro p hp
    rw [he] at hp
    obtain ⟨d, v, hdv, hex, k, hk, hpk⟩ := hall p hp
    refine ⟨by rw [hpk]; rfl, by rw [hpk]; rfl, by rw [hpk]; rfl, d, v,
      hperm.mem_iff.1 hdv, hex, k, hk, hpk⟩
  · intro h d v hdv hex k hk
    rw [he]
    exact (hok h).1 d v (hperm.mem_iff.2 (mem_of_mapGet _ _ _ hdv)) hex k hk
  · intro hnf
    by_contra hne
    have hf : (integrityCheck putFails existingChunks entries []).2 = false := by
      simpa using hne
    obtain ⟨n, _, hn⟩ := hiff.1 hf
    rw [hnf n] at hn
    simp at hn

theorem integrityCheck_marks_corrupted_witness :
    (integrityCheck (fun _ => false) [(EncodeToString (List.replicate 32 170), true)]
        exampleKnown.reverse []).2 = true ∧
      Put.mk "backups/ct/200/2024-01-01T00:00:00Z/corrupted" "CORRUPTED" 9 ∈
        (integrityCheck (fun _ => false) [(EncodeToString (List.replicate 32 170), true)]
          exampleKnown.reverse []).1 :=
  have h := integrityCheck_marks_corrupted (fun _ => false)
    [(EncodeToString (List.replicate 32 170), true)] exampleKnown exampleKnown.reverse
    (List.reverse_perm exampleKnown)
  ⟨h.2.2.2.1 (fun _ => rfl),
    (by decide! : Put.mk (basepath exampleDynamic.Key ++ "/corrupted") "CORRUPTED" 9 =
      Put.mk "backups/ct/200/2024-01-01T00:00:00Z/corrupted" "CORRUPTED" 9) ▸
    h.2.1 (h.2.2.2.1 (fun _ => rfl)) (EncodeToString (List.replicate 32 204))
      [exampleDynamic.Key] (by decide!) (by decide!) exampleDynamic.Key (by decide!)⟩

/-! ## The driver and the lock -/

/-- C10, amended (lock release). In every run in which the lock was acquired, `Release` is
performed exactly when the run reaches its successful finish; on every other way out after
the acquisition (a fatal exit, or a record loop that does not stop) the process ends without
having called `Release`. -/
theorem main_releases_iff_success (env : Env) (_hacq : (main env).lockAcquired = true) :
    ((main env).lockReleased = true ↔ (main env).exit = Exit.success) ∧
    (∀ e, (main env).exit = Exit.fatal e → (main env).lockReleased = false) := by
  unfold main
  simp only [Run.stop]
  split
  · simp
  · split
    · simp
    · simp
    · split
      · simp
      · split
        · simp
        · split
          · simp
          · simp
          · split
            · simp
            · simp
            · split
              · simp
              · simp

theorem main_releases_iff_success_witness :
    (main (exampleEnv [Snapshot.mk "vm/100" 1699999000 false] [])).exit = Exit.success ∧
      (main (exampleEnv [Snapshot.mk "vm/100" 1699999000 false] [])).lockReleased = true :=
  ⟨by decide,
    ((main_releases_iff_success
      (exampleEnv [Snapshot.mk "vm/100" 1699999000 false] []) (by decide)).1).2
      (by decide)⟩

/-- C10 as stated fails on the code: with the lock acquired and no snapshot in the bucket the
run ends by the fatal exit "No snapshots found in bucket" and `Release` has not been called. -/
theorem main_exits_holding_lock :
    (main (exampleEnv [] [])).lockAcquired = true ∧
      (main (exampleEnv [] [])).exit = Exit.fatal Fatal.noSnapshots ∧
      (main (exampleEnv [] [])).lockReleased = false := by
  decide

end GC
